import Mathlib

/-!
Verification of the sudoku_solver repository (puzzle.py / solver.py).

The Python data model is embedded shallowly:
* a Python `set` of digits is modelled as a duplicate-free `List Nat`
  (all candidate sets reachable from construction are subsets of {1..9},
  built only by filtering, so freedom from duplicates is preserved);
  `set.remove`/`set.discard` become `List.filter`, `len` becomes `List.length`,
  and `set.pop()` on a singleton returns its head and leaves the empty set;
* the shared mutable `Cell` objects referenced by `Row`/`Column`/`Box` are
  modelled with the arena-and-index scheme: the puzzle is the flat 81-cell
  list built by `Puzzle.__init__`, and each unit is the list of flat indices
  of the cells that `Puzzle.__init__` appends to it (in append order);
* the `while` loops of `Solver` are modelled with an explicit iteration
  budget ("fuel"): `_solve_by_random` is capped by the source itself at
  `max_attempts = 10000` iterations, and for the elimination loop a fuel of
  492 is proved sufficient to reach a terminal state from any constructed
  puzzle, so the fuelled function agrees with the unbounded loop there.
-/

set_option maxRecDepth 100000
set_option maxHeartbeats 2000000

namespace Sudoku

/-- Embeds `Cell` from puzzle.py: `value`, `possible_values`, and the absolute
position fields set by `Puzzle.__init__` (`x_pos_rel`/`y_pos_rel` are written
by the constructor but never read by any code, so they are omitted). -/
structure Cell where
  value : Nat
  possible_values : List Nat
  x_pos_abs : Nat
  y_pos_abs : Nat
deriving DecidableEq

instance : Inhabited Cell := ⟨⟨0, [], 0, 0⟩⟩

/-- The digits 1..9, i.e. Python `set(range(1, 10))` / the loader digit range. -/
def digits : List Nat := [1, 2, 3, 4, 5, 6, 7, 8, 9]

/-- Embeds `Cell.__init__` (value and candidate set) combined with the position
assignment done immediately afterwards by `Puzzle.__init__` for the cell at
row `r`, column `c`:
`possible_values = set(range(1, 10)) if value == 0 else {value}`. -/
def cellNew (v r c : Nat) : Cell :=
  { value := v
    possible_values := if v = 0 then digits else [v]
    x_pos_abs := r
    y_pos_abs := c }

/-- Embeds `Cell.remove_possible_value`: remove `val` if present (no-op otherwise). -/
def Cell.remove_possible_value (c : Cell) (val : Nat) : Cell :=
  if val ∈ c.possible_values then
    { c with possible_values := c.possible_values.filter (fun x => x ≠ val) }
  else c

/-- Reading `self.cells[i]` (all indices used by the solver are in range;
out-of-range reads return a dummy cell with empty candidate set, which makes
every guarded operation a no-op). -/
def cellsGet (cells : List Cell) (i : Nat) : Cell := cells.getD i default

/-- Embeds `Puzzle.__init__`: the flat row-major 81-cell list
`[Cell(value=grid[y][x]) for y in range(9) for x in range(9)]`, with the
absolute positions `x_pos_abs = row`, `y_pos_abs = col` assigned to the cell
at flat index `row * 9 + col`. -/
def mkCells (grid : List (List Nat)) : List Cell :=
  (List.range 9).flatMap (fun r =>
    (List.range 9).map (fun c => cellNew ((grid.getD r []).getD c 0) r c))

/-- The formula `box_id = (row // 3) * 3 + (col // 3)` (used both by `Puzzle.__init__`
and by `Solver._perform_basic_elimination`). -/
def boxIdxOf (r c : Nat) : Nat := (r / 3) * 3 + (c / 3)

/-- Flat indices of the cells `Puzzle.__init__` appends to `rows[r]`
(row-major order). -/
def rowIdx (r : Nat) : List Nat := (List.range 9).map (fun c => r * 9 + c)

/-- Flat indices of the cells `Puzzle.__init__` appends to `columns[c]`. -/
def colIdx (c : Nat) : List Nat := (List.range 9).map (fun r => r * 9 + c)

/-- Flat indices of the cells `Puzzle.__init__` appends to `boxes[b]`:
the row-major traversal appends cell `(r, c)` to box `(r//3)*3 + c//3`,
so each box holds its cells in increasing flat-index order. -/
def boxIdx (b : Nat) : List Nat :=
  (List.range 81).filter (fun i => boxIdxOf (i / 9) (i % 9) == b)

/-- The cells of a unit, looked up through its index view. -/
def unitCells (cells : List Cell) (u : List Nat) : List Cell :=
  u.map (cellsGet cells)

/-- Python set equality of two lists of naturals (ignores order and
multiplicity, exactly like comparing the corresponding `set` objects). -/
def setEqList (a b : List Nat) : Bool :=
  a.all (fun x => b.contains x) && b.all (fun x => a.contains x)

/-- Embeds `Box.is_satisfied` / `Row.is_satisfied` / `Column.is_satisfied` (their
bodies are identical): `{cell.value for cell in cells if value != 0} ==
set(range(1, 10))`. -/
def is_satisfied (cs : List Cell) : Bool :=
  setEqList ((cs.map Cell.value).filter (fun v => v != 0)) digits

/-- Embeds `Puzzle.is_solved`: all boxes, rows and columns satisfied. -/
def is_solved (cells : List Cell) : Bool :=
  let boxes_satisfied := (List.range 9).all (fun b => is_satisfied (unitCells cells (boxIdx b)))
  let rows_satisfied := (List.range 9).all (fun r => is_satisfied (unitCells cells (rowIdx r)))
  let columns_satisfied := (List.range 9).all (fun c => is_satisfied (unitCells cells (colIdx c)))
  boxes_satisfied && rows_satisfied && columns_satisfied

/-- The Python `IndexError` message text. -/
def msgIndexError : String := "IndexError"

/-- Python list indexing `lst[i]`: negative indices wrap from the end and
only indices outside `[-len, len)` raise `IndexError`. -/
def pyListGet (cells : List Cell) (i : Int) : Except String Cell :=
  if 0 ≤ i ∧ i < (cells.length : Int) then Except.ok (cellsGet cells i.toNat)
  else if -(cells.length : Int) ≤ i ∧ i < 0 then
    Except.ok (cellsGet cells (i + (cells.length : Int)).toNat)
  else Except.error msgIndexError

/-- Embeds `Puzzle.get_cell`: the body is plainly `self.cells[x * 9 + y]` — list indexing, list indexing,
with no bounds check on `x` or `y` themselves. -/
def get_cell (cells : List Cell) (x y : Int) : Except String Cell :=
  pyListGet cells (x * 9 + y)

/-- Returns `true` for `Except.ok`, i.e. the call returned a cell without raising. -/
def returnsCell (e : Except String Cell) : Bool :=
  match e with
  | Except.ok _ => true
  | Except.error _ => false

/-- The rows-then-columns-then-boxes unit list
`self.puzzle.rows + self.puzzle.columns + self.puzzle.boxes` traversed by
`_apply_pairs_technique` and `_apply_triples_technique`. -/
def allUnits : List (List Nat) :=
  ((List.range 9).map rowIdx) ++ ((List.range 9).map colIdx) ++ ((List.range 9).map boxIdx)

/-- The mutable state of `Solver` (the bound puzzle plus all counters/flags
set in `Solver.__init__`). -/
structure SolverSt where
  cells : List Cell
  steps : Nat
  cells_filled : Nat
  elimination_operations : Nat
  solver_iterations : Nat
  logical_steps : Nat
  solved : Bool
  unsolvable : Bool
  iterations_without_progress : Nat
deriving DecidableEq

instance : Inhabited SolverSt := ⟨⟨[], 0, 0, 0, 0, 0, false, false, 0⟩⟩

/-- Embeds `Solver.__init__`: all counters zero, both flags false. -/
def mkSolver (cells : List Cell) : SolverSt :=
  { cells := cells
    steps := 0
    cells_filled := 0
    elimination_operations := 0
    solver_iterations := 0
    logical_steps := 0
    solved := false
    unsolvable := false
    iterations_without_progress := 0 }

/-- The effect of one technique call: the mutated cells plus the amounts it
added to `cells_filled` (= the local `cells_filled_this_iteration`),
`elimination_operations` and `logical_steps`. -/
structure TechOut where
  cells : List Cell
  fills : Nat
  ops : Nat
  lsteps : Nat
deriving DecidableEq

/-- One peer visit inside `_perform_basic_elimination`:
`if val in c.possible_values: c.remove_possible_value(val);
self.elimination_operations += 1`. -/
def elimValAt (val : Nat) (st : List Cell × Nat) (j : Nat) : List Cell × Nat :=
  let c := cellsGet st.1 j
  if val ∈ c.possible_values then (st.1.set j (c.remove_possible_value val), st.2 + 1)
  else st

/-- Eliminating `val` from every cell of one unit (`for c in unit.cells`). -/
def elimValUnit (val : Nat) (idxs : List Nat) (st : List Cell × Nat) : List Cell × Nat :=
  idxs.foldl (elimValAt val) st

/-- The body of the first loop of `_perform_basic_elimination` for flat index
`i`: if cell `i` is filled, count one logical step and eliminate its value
from its row, column and box. -/
def sweepStep (t : TechOut) (i : Nat) : TechOut :=
  let cell := cellsGet t.cells i
  if cell.value ≠ 0 then
    let val := cell.value
    let x := cell.x_pos_abs
    let y := cell.y_pos_abs
    let r1 := elimValUnit val (rowIdx x) (t.cells, t.ops)
    let r2 := elimValUnit val (colIdx y) r1
    let r3 := elimValUnit val (boxIdx (boxIdxOf x y)) r2
    { cells := r3.1, fills := t.fills, ops := r3.2, lsteps := t.lsteps + 1 }
  else t

/-- The elimination sweep of `_perform_basic_elimination`
(`for i in range(81)`), before any cell is filled. -/
def elimSweep (cells : List Cell) : TechOut :=
  (List.range 81).foldl sweepStep { cells := cells, fills := 0, ops := 0, lsteps := 0 }

/-- The fill assignment `cell.value = cell.possible_values.pop()`: a `set.pop()` on the (always
singleton) candidate set returns its element and removes it from the set. -/
def fillCell (c : Cell) : Cell :=
  let v := c.possible_values.headD 0
  { c with value := v, possible_values := c.possible_values.filter (fun x => x ≠ v) }

/-- The second loop of `_perform_basic_elimination`: fill every cell whose
value is 0 and whose candidate set is a singleton, counting each fill. -/
def fillSingles : List Cell → List Cell × Nat
  | [] => ([], 0)
  | c :: rest =>
    let r := fillSingles rest
    if c.value = 0 ∧ c.possible_values.length = 1 then (fillCell c :: r.1, r.2 + 1)
    else (c :: r.1, r.2)

/-- Embeds `Solver._perform_basic_elimination`: the full sweep, then the
fill-singles pass; returns `cells_filled_this_iteration`. -/
def basicElim (cells : List Cell) : TechOut :=
  let s := elimSweep cells
  let f := fillSingles s.cells
  { cells := f.1, fills := f.2, ops := s.ops, lsteps := s.lsteps }

/-- Insertion into the `pairs`/`triples` dict keyed by `frozenset`: look up
an existing key by set equality and append the cell index, else append a new
entry at the end (Python dict insertion order). -/
def addToGroups : List (List Nat × List Nat) → List Nat → Nat → List (List Nat × List Nat)
  | [], key, j => [(key, [j])]
  | (k0, js) :: rest, key, j =>
    if setEqList k0 key then (k0, js ++ [j]) :: rest
    else (k0, js) :: addToGroups rest key j

/-- Building the dict of `k`-candidate cells of one unit
(`if cell.value == 0 and len(cell.possible_values) == k`). -/
def collectGroups (k : Nat) (cells : List Cell) (unit : List Nat) : List (List Nat × List Nat) :=
  unit.foldl (fun d j =>
    let c := cellsGet cells j
    if c.value = 0 ∧ c.possible_values.length = k then addToGroups d c.possible_values j
    else d) []

/-- One `val` of the innermost loop of the subset-exclusion techniques for
target cell `j`: a successful removal counts one elimination operation and
one logical step, and a removal that leaves a singleton fills the cell
immediately (one more fill and one more logical step). -/
def subElimStep (j : Nat) (st : TechOut) (val : Nat) : TechOut :=
  let c := cellsGet st.cells j
  if val ∈ c.possible_values then
    let c1 := c.remove_possible_value val
    let st1 : TechOut :=
      { cells := st.cells.set j c1, fills := st.fills, ops := st.ops + 1, lsteps := st.lsteps + 1 }
    if c1.possible_values.length = 1 then
      { cells := st1.cells.set j (fillCell c1), fills := st1.fills + 1
        ops := st1.ops, lsteps := st1.lsteps + 1 }
    else st1
  else st

/-- The loop `for val in key` over one target cell. -/
def subElimVals (key : List Nat) (j : Nat) (st : TechOut) : TechOut :=
  key.foldl (subElimStep j) st

/-- One target cell of the per-group elimination loop
(`if cell not in cells_with_pair and cell.value == 0`). -/
def subTargetStep (g : List Nat × List Nat) (st : TechOut) (j : Nat) : TechOut :=
  let c := cellsGet st.cells j
  if j ∉ g.2 ∧ c.value = 0 then subElimVals g.1 j st else st

/-- One dict entry (`for key, cells_with_pair in pairs.items()`): only groups
held by exactly `k` cells trigger eliminations over the unit. -/
def subGroupStep (k : Nat) (unit : List Nat) (st : TechOut) (g : List Nat × List Nat) : TechOut :=
  if g.2.length = k then unit.foldl (subTargetStep g) st else st

/-- The subset-exclusion body for one unit: collect the groups from the
current state, then process each group in dict order. -/
def subUnit (k : Nat) (st : TechOut) (unit : List Nat) : TechOut :=
  (collectGroups k st.cells unit).foldl (subGroupStep k unit) st

/-- Embeds `Solver._apply_pairs_technique` (`k = 2`) and
`Solver._apply_triples_technique` (`k = 3`): the two Python methods are
textually identical except for the constant, so they are embedded once,
parameterized by `k`. -/
def subsetTechnique (k : Nat) (cells : List Cell) : TechOut :=
  allUnits.foldl (subUnit k) { cells := cells, fills := 0, ops := 0, lsteps := 0 }

/-- The technique configuration of `_solve_by_elimination_base`
(`use_pairs`, `use_triples`). -/
structure Cfg where
  use_pairs : Bool
  use_triples : Bool

/-- Accumulate a second technique result onto a first. -/
def TechOut.add (a b : TechOut) : TechOut :=
  { cells := b.cells, fills := a.fills + b.fills, ops := a.ops + b.ops
    lsteps := a.lsteps + b.lsteps }

/-- One iteration of `_solve_by_elimination_base` at puzzle level: basic
elimination, then (if enabled) pair exclusion, then (if enabled) triple
exclusion, with all counter deltas summed. -/
def pipeOnce (cfg : Cfg) (cells : List Cell) : TechOut :=
  let b := basicElim cells
  let p := if cfg.use_pairs then b.add (subsetTechnique 2 b.cells) else b
  if cfg.use_triples then p.add (subsetTechnique 3 p.cells) else p

/-- The puzzle state after one iteration of the elimination pipeline. -/
def pIter (cfg : Cfg) (cells : List Cell) : List Cell := (pipeOnce cfg cells).cells

/-- The body of one `while` iteration of `_solve_by_elimination_base`:
increment `solver_iterations`, run the technique pipeline, refresh the
legacy `steps` counter, then apply the stagnation logic
(`max_iterations_without_progress = 5`) and, unless the stagnation break
fires, re-check `is_solved`. Returns `(continue?, next state)`: the flag is
`false` exactly for the `break` after `unsolvable = True`. -/
def elimStepRes (cfg : Cfg) (s : SolverSt) : Bool × SolverSt :=
  let r := pipeOnce cfg s.cells
  let s1 : SolverSt :=
    { cells := r.cells
      cells_filled := s.cells_filled + r.fills
      elimination_operations := s.elimination_operations + r.ops
      logical_steps := s.logical_steps + r.lsteps
      solver_iterations := s.solver_iterations + 1
      steps := s.cells_filled + r.fills
      solved := s.solved
      unsolvable := s.unsolvable
      iterations_without_progress := s.iterations_without_progress }
  if r.fills = 0 then
    if 5 ≤ s.iterations_without_progress + 1 then
      (false, { s1 with iterations_without_progress := s.iterations_without_progress + 1
                        unsolvable := true })
    else
      (true, { s1 with iterations_without_progress := s.iterations_without_progress + 1
                       solved := is_solved r.cells })
  else
    (true, { s1 with iterations_without_progress := 0, solved := is_solved r.cells })

/-- The `while not solved and not unsolvable` loop of
`_solve_by_elimination_base`, with an explicit iteration budget (`fuel`);
the termination theorem for the implicit claim below proves 492 iterations
always suffice from a constructed puzzle, where the fuelled loop therefore
agrees with the unbounded Python loop. -/
def elimLoop (cfg : Cfg) : Nat → SolverSt → SolverSt
  | 0, s => s
  | fuel + 1, s =>
    if s.solved || s.unsolvable then s
    else
      let p := elimStepRes cfg s
      if p.1 then elimLoop cfg fuel p.2 else p.2

/-- The flat indices of the empty cells, in list order
(`[cell for cell in self.puzzle.cells if cell.value == 0]`, with each chosen
cell represented by its index so the mutation site is explicit). -/
def emptiesOf (cells : List Cell) : List Nat :=
  (List.range cells.length).filter (fun i => (cellsGet cells i).value == 0)

/-- Embeds `Solver._get_valid_values_for_cell` for the cell at flat index `i`:
start from `set(range(1, 10))` and `discard` every filled value of the
row, column and box of the cell. -/
def validValuesForIdx (cells : List Cell) (i : Nat) : List Nat :=
  let c := cellsGet cells i
  if c.value ≠ 0 then []
  else
    let v1 := (unitCells cells (rowIdx c.x_pos_abs)).foldl
      (fun acc cc => if cc.value ≠ 0 then acc.filter (fun x => x ≠ cc.value) else acc) digits
    let v2 := (unitCells cells (colIdx c.y_pos_abs)).foldl
      (fun acc cc => if cc.value ≠ 0 then acc.filter (fun x => x ≠ cc.value) else acc) v1
    (unitCells cells (boxIdx (boxIdxOf c.x_pos_abs c.y_pos_abs))).foldl
      (fun acc cc => if cc.value ≠ 0 then acc.filter (fun x => x ≠ cc.value) else acc) v2

/-- The `while` loop of `_solve_by_random`. `random.choice` is modelled by an
oracle of pseudo-random numbers consumed left to right (`t` is the cursor);
a choice from a list of length `n` takes `oracle t % n`. The source guard
`attempt < max_attempts` is represented structurally: `fuel` is exactly
`max_attempts - attempt`, so `fuel = 0` iff the cap is reached. Returns the
final state and the final `attempt` counter. -/
def randLoop (oracle : Nat → Nat) : Nat → SolverSt → Nat → Nat → SolverSt × Nat
  | 0, s, attempt, _ => (s, attempt)
  | fuel + 1, s, attempt, t =>
    if s.solved || s.unsolvable then (s, attempt)
    else
      let s0 := { s with solver_iterations := s.solver_iterations + 1 }
      let empties := emptiesOf s0.cells
      if empties.length = 0 then ({ s0 with solved := true }, attempt + 1)
      else
        let i := empties.getD (oracle t % empties.length) 0
        let vv := validValuesForIdx s0.cells i
        if vv.length = 0 then ({ s0 with unsolvable := true }, attempt + 1)
        else
          let v := vv.getD (oracle (t + 1) % vv.length) 0
          let c := cellsGet s0.cells i
          let cells1 := s0.cells.set i { c with value := v, possible_values := [v] }
          let s1 := { s0 with cells := cells1
                              cells_filled := s0.cells_filled + 1
                              logical_steps := s0.logical_steps + 1
                              solved := is_solved cells1 }
          randLoop oracle fuel { s1 with steps := s1.cells_filled } (attempt + 1) (t + 2)

/-- Embeds `Solver._solve_by_random`: run the loop with the source cap
`max_attempts = 10000`, then `if attempt >= max_attempts: unsolvable = True`.
Returns the final state together with the final `attempt` counter. -/
def solveRandom (oracle : Nat → Nat) (s : SolverSt) : SolverSt × Nat :=
  let r := randLoop oracle 10000 s 0 0
  (if 10000 ≤ r.2 then { r.1 with unsolvable := true } else r.1, r.2)

/-- A value of the dict returned by `get_detailed_stats`: Python ints,
floats (exact rationals here) and bools. -/
inductive StatVal where
  | n : Nat → StatVal
  | q : ℚ → StatVal
  | b : Bool → StatVal
deriving DecidableEq

def keyCellsFilled : String := "cells_filled"
def keyElimOps : String := "elimination_operations"
def keySolverIters : String := "solver_iterations"
def keyLogicalSteps : String := "logical_steps"
def keyTotalReasoning : String := "total_reasoning_operations"
def keyEffRatio : String := "efficiency_ratio"
def keyElimsPerCell : String := "eliminations_per_cell"
def keySolved : String := "solved"
def keyUnsolvable : String := "unsolvable"
def keyIterNoProgress : String := "iterations_without_progress"

/-- Embeds `Solver.get_detailed_stats`: the returned dict, as a key/value list in
dict insertion order. Python float division is modelled exactly in `ℚ`. -/
def get_detailed_stats (s : SolverSt) : List (String × StatVal) :=
  [(keyCellsFilled, StatVal.n s.cells_filled),
   (keyElimOps, StatVal.n s.elimination_operations),
   (keySolverIters, StatVal.n s.solver_iterations),
   (keyLogicalSteps, StatVal.n s.logical_steps),
   (keyTotalReasoning, StatVal.n (s.logical_steps + s.elimination_operations)),
   (keyEffRatio, StatVal.q ((s.cells_filled : ℚ) / ((max 1 s.solver_iterations : Nat) : ℚ))),
   (keyElimsPerCell, StatVal.q ((s.elimination_operations : ℚ) / ((max 1 s.cells_filled : Nat) : ℚ))),
   (keyUnsolvable, StatVal.b s.unsolvable),
   (keyIterNoProgress, StatVal.n s.iterations_without_progress)]

def strElimination : String := "elimination"
def strEliminationPlus : String := "elimination_plus"
def strEliminationPro : String := "elimination_pro"
def strRandom : String := "random"
def msgUnknownMethod : String := "Unknown solving method"

/-- Embeds `Solver.solve`: dispatch on the method string; an unrecognized method
raises `ValueError` before any mutation. -/
def solve (method : String) (oracle : Nat → Nat) (s : SolverSt) : Except String SolverSt :=
  if method = strElimination then Except.ok (elimLoop ⟨false, false⟩ 492 s)
  else if method = strEliminationPlus then Except.ok (elimLoop ⟨true, false⟩ 492 s)
  else if method = strEliminationPro then Except.ok (elimLoop ⟨true, true⟩ 492 s)
  else if method = strRandom then Except.ok (solveRandom oracle s).1
  else Except.error msgUnknownMethod

/-! ### Derived state observations used by the theorems -/

/-- The value vector of the board (what `is_solved` and progress depend on). -/
def valuesOf (cells : List Cell) : List Nat := cells.map Cell.value

/-- Number of empty cells. -/
def eCount (cells : List Cell) : Nat := ((valuesOf cells).filter (fun v => v == 0)).length

/-- Every candidate set omits 0 (true of every constructed puzzle and
preserved by every technique); guarantees every fill writes a non-zero
value. -/
def noZeroPV (cells : List Cell) : Prop :=
  ∀ j, 0 ∉ (cellsGet cells j).possible_values

/-- The weakened per-cell invariant: the candidate set of a filled cell contains
nothing but its value (it is `{value}` at construction and possibly `∅`
after a technique has run). -/
def invW (cells : List Cell) : Prop :=
  ∀ j, ∀ x ∈ (cellsGet cells j).possible_values,
    (cellsGet cells j).value ≠ 0 → x = (cellsGet cells j).value

/-- Executable form of the exact spec invariant `candidates = {value}` for
filled cells. -/
def invStrictB (cells : List Cell) : Bool :=
  cells.all (fun c => c.value == 0 || c.possible_values == [c.value])

/-- Executable form of `invW`. -/
def invWB (cells : List Cell) : Bool :=
  cells.all (fun c => c.value == 0 || c.possible_values.all (fun x => x == c.value))

/-- Executable form of `noZeroPV`. -/
def noZeroPVB (cells : List Cell) : Bool :=
  cells.all (fun c => !(c.possible_values.contains 0))

/-- The position fields hold the coordinates of the flat index of each cell, as
established by `Puzzle.__init__`. -/
def posOK (cells : List Cell) : Prop :=
  ∀ i, i < cells.length →
    (cellsGet cells i).x_pos_abs = i / 9 ∧ (cellsGet cells i).y_pos_abs = i % 9

/-- Every candidate set is duplicate-free (lists model Python sets). -/
def nodupPV (cells : List Cell) : Prop :=
  ∀ j, (cellsGet cells j).possible_values.Nodup

/-- Total number of candidates on the board. -/
def totalPV (cells : List Cell) : Nat :=
  (cells.map (fun c => c.possible_values.length)).sum

/-- Two flat indices share a row, a column, or a box. -/
def sameUnit (i j : Nat) : Prop :=
  j / 9 = i / 9 ∨ j % 9 = i % 9 ∨ boxIdxOf (j / 9) (j % 9) = boxIdxOf (i / 9) (i % 9)

/-! ### The elimination-step evolution relation

`Shrink a b` says board `b` arises from board `a` by pure candidate
removals: same length, same values, same positions, and every candidate set
of `b` is a sublist of the corresponding one of `a`. -/

def Shrink (a b : List Cell) : Prop :=
  b.length = a.length ∧
  ∀ j, (cellsGet b j).value = (cellsGet a j).value
     ∧ (cellsGet b j).possible_values.Sublist (cellsGet a j).possible_values
     ∧ (cellsGet b j).x_pos_abs = (cellsGet a j).x_pos_abs
     ∧ (cellsGet b j).y_pos_abs = (cellsGet a j).y_pos_abs

/-- Relation `Evo a b`: board/counter pair `b` arises from `a` by technique steps:
the board keeps its length; fills only grow; a pass with no fills leaves all
values unchanged; zero-free candidate sets stay zero-free and then every
fill turns exactly one empty cell non-empty; and the weak invariant is
preserved. -/
def Evo (a b : TechOut) : Prop :=
  b.cells.length = a.cells.length ∧
  a.fills ≤ b.fills ∧
  (b.fills = a.fills → valuesOf b.cells = valuesOf a.cells) ∧
  (noZeroPV a.cells → noZeroPV b.cells ∧ eCount b.cells + b.fills = eCount a.cells + a.fills) ∧
  (invW a.cells → invW b.cells)

def nonzeroValues (cs : List Cell) : List Nat :=
  (cs.map Cell.value).filter (fun v => v != 0)

/-! ### Concrete boards used by witnesses and counterexamples -/

/-- A board whose only given is a 5 at (0, 0). -/
def grid0 : List (List Nat) :=
  ([5] ++ List.replicate 8 0) :: List.replicate 8 (List.replicate 9 0)

/-- The all-empty board. -/
def gridEmpty : List (List Nat) := List.replicate 9 (List.replicate 9 0)

/-- A completed, valid board. -/
def gridFull : List (List Nat) :=
  [[1,2,3,4,5,6,7,8,9],[4,5,6,7,8,9,1,2,3],[7,8,9,1,2,3,4,5,6],
   [2,3,4,5,6,7,8,9,1],[5,6,7,8,9,1,2,3,4],[8,9,1,2,3,4,5,6,7],
   [3,4,5,6,7,8,9,1,2],[6,7,8,9,1,2,3,4,5],[9,1,2,3,4,5,6,7,8]]

/-- A board whose first empty cell (0,0) has no valid digit: its row holds
1..8 and its column holds 9. -/
def gridDead : List (List Nat) :=
  [0,1,2,3,4,5,6,7,8] :: ([9] ++ List.replicate 8 0) :: List.replicate 7 (List.replicate 9 0)

/-- State produced by the concrete `solve` run used as the C9 witness. -/
def c9WitnessState : SolverSt :=
  ((solve strRandom (fun _ => 0) (mkSolver (mkCells gridFull))).toOption).getD default

/-! ### List-level lemmas -/

theorem cellsGet_ge {l : List Cell} {i : Nat} (h : l.length ≤ i) : cellsGet l i = default := by
  induction l generalizing i with
  | nil => simp [cellsGet]
  | cons a t ih =>
    cases i with
    | zero => simp at h
    | succ i => simpa [cellsGet] using ih (by simpa using h)

theorem cellsGet_set (l : List Cell) (j : Nat) (x : Cell) (i : Nat) :
    cellsGet (l.set j x) i = if j = i ∧ j < l.length then x else cellsGet l i := by
  induction l generalizing i j with
  | nil => simp [cellsGet]
  | cons a t ih =>
    cases j with
    | zero =>
      cases i with
      | zero => simp [cellsGet]
      | succ i => simp [cellsGet]
    | succ j =>
      cases i with
      | zero => simp [cellsGet]
      | succ i =>
        simp only [List.set, cellsGet, List.getD_cons_succ, List.length_cons]
        have h3 := ih j i
        simp only [cellsGet] at h3
        rw [h3]
        by_cases h1 : j = i <;> by_cases h2 : j < t.length <;> simp [h1, h2, Nat.succ_lt_succ_iff]

theorem valuesOf_getD (cells : List Cell) (i : Nat) :
    (cellsGet cells i).value = (valuesOf cells).getD i 0 := by
  induction cells generalizing i with
  | nil =>
    show (default : Cell).value = _
    simp [valuesOf]
    rfl
  | cons a t ih =>
    cases i with
    | zero => simp [cellsGet, valuesOf]
    | succ i => simpa [cellsGet, valuesOf] using ih i

theorem valuesOf_length (cells : List Cell) : (valuesOf cells).length = cells.length := by
  simp [valuesOf]

theorem valuesOf_set (l : List Cell) (j : Nat) (x : Cell) :
    valuesOf (l.set j x) = (valuesOf l).set j x.value := by
  simp [valuesOf, List.map_set]

theorem valuesOf_set_of_eq {l : List Cell} {j : Nat} {x : Cell}
    (h : x.value = (cellsGet l j).value) : valuesOf (l.set j x) = valuesOf l := by
  rcases Nat.lt_or_ge j l.length with hj | hj
  · rw [valuesOf_set, h, valuesOf_getD]
    apply List.ext_getElem (by simp)
    intro i h1 h2
    rw [List.getElem_set]
    split
    · subst i
      rw [List.getD_eq_getElem?_getD, List.getElem?_eq_getElem h2]
      rfl
    · rfl
  · rw [List.set_eq_of_length_le (by omega)]

theorem eCount_values_congr {a b : List Cell} (h : valuesOf a = valuesOf b) :
    eCount a = eCount b := by
  simp [eCount, h]

theorem countZero_set {l : List Nat} {j : Nat} {v : Nat}
    (hj : j < l.length) (h0 : l.getD j 0 = 0) (hv : v ≠ 0) :
    ((l.set j v).filter (fun x => x == 0)).length + 1 = (l.filter (fun x => x == 0)).length := by
  induction l generalizing j with
  | nil => simp at hj
  | cons a t ih =>
    cases j with
    | zero =>
      simp only [List.getD_cons_zero] at h0
      subst h0
      have hb : (v == 0) = false := by simpa using hv
      simp [List.filter_cons, hb]
    | succ j =>
      simp only [List.getD_cons_succ] at h0
      have ihr := ih (by simpa using hj) h0
      by_cases ha : a = 0
      · have hb : (a == 0) = true := by simpa using ha
        simp only [List.set, List.filter_cons, hb, if_true, List.length_cons]
        omega
      · have hb : (a == 0) = false := by simpa using ha
        simp only [List.set, List.filter_cons, hb, Bool.false_eq_true, if_false]
        omega

theorem default_pv : (default : Cell).possible_values = [] := rfl

theorem default_value : (default : Cell).value = 0 := rfl

theorem cellsGet_lt {l : List Cell} {i : Nat} (h : i < l.length) :
    cellsGet l i = l.get ⟨i, h⟩ := by
  simp [cellsGet, List.getD_eq_getElem?_getD, List.getElem?_eq_getElem h]

theorem pv_ne_nil_lt {l : List Cell} {j : Nat}
    (h : (cellsGet l j).possible_values ≠ []) : j < l.length := by
  by_contra hc
  rw [cellsGet_ge (by omega), default_pv] at h
  exact h rfl

theorem noZeroPV_iff (cells : List Cell) :
    noZeroPV cells ↔ ∀ c ∈ cells, 0 ∉ c.possible_values := by
  constructor
  · intro h c hc
    obtain ⟨j, hj, rfl⟩ := List.getElem_of_mem hc
    have h2 := h j
    rw [cellsGet_lt hj] at h2
    simpa using h2
  · intro h j
    rcases Nat.lt_or_ge j cells.length with hj | hj
    · rw [cellsGet_lt hj]
      exact h _ (by simp)
    · rw [cellsGet_ge hj, default_pv]
      simp

theorem invW_iff (cells : List Cell) :
    invW cells ↔ ∀ c ∈ cells, ∀ x ∈ c.possible_values, c.value ≠ 0 → x = c.value := by
  constructor
  · intro h c hc
    obtain ⟨j, hj, rfl⟩ := List.getElem_of_mem hc
    have h2 := h j
    rw [cellsGet_lt hj] at h2
    simpa using h2
  · intro h j
    rcases Nat.lt_or_ge j cells.length with hj | hj
    · rw [cellsGet_lt hj]
      exact h _ (by simp)
    · rw [cellsGet_ge hj]
      intro x hx
      rw [default_pv] at hx
      simp at hx

theorem eCount_cons (c : Cell) (t : List Cell) :
    eCount (c :: t) = (if c.value = 0 then 1 else 0) + eCount t := by
  by_cases h : c.value = 0
  · have hb : (c.value == 0) = true := by simpa using h
    simp [eCount, valuesOf, List.filter_cons, hb, h]
    omega
  · have hb : (c.value == 0) = false := by simpa using h
    simp [eCount, valuesOf, List.filter_cons, hb, h]



theorem shrinkRefl (a : List Cell) : Shrink a a :=
  ⟨rfl, fun _ => ⟨rfl, List.Sublist.refl _, rfl, rfl⟩⟩

theorem shrinkTrans {a b c : List Cell} (h1 : Shrink a b) (h2 : Shrink b c) : Shrink a c := by
  refine ⟨h2.1.trans h1.1, fun j => ?_⟩
  obtain ⟨v1, s1, x1, y1⟩ := h1.2 j
  obtain ⟨v2, s2, x2, y2⟩ := h2.2 j
  exact ⟨v2.trans v1, s2.trans s1, x2.trans x1, y2.trans y1⟩

theorem Shrink.valuesOf_eq {a b : List Cell} (h : Shrink a b) : valuesOf b = valuesOf a := by
  apply List.ext_getElem (by simp [valuesOf, h.1])
  intro i h1 h2
  have hv := (h.2 i).1
  have hb : i < b.length := by simpa [valuesOf] using h1
  have ha : i < a.length := by simpa [valuesOf] using h2
  rw [cellsGet_lt hb, cellsGet_lt ha] at hv
  simpa [valuesOf] using hv

theorem Shrink.noZero {a b : List Cell} (h : Shrink a b) (ha : noZeroPV a) : noZeroPV b :=
  fun j hx => ha j ((h.2 j).2.1.mem hx)

theorem Shrink.invW {a b : List Cell} (h : Shrink a b) (ha : invW a) : invW b := by
  intro j x hx hv
  rw [(h.2 j).1] at hv ⊢
  exact ha j x ((h.2 j).2.1.mem hx) hv

theorem Shrink.nodup {a b : List Cell} (h : Shrink a b) (ha : nodupPV a) : nodupPV b :=
  fun j => ((h.2 j).2.1.nodup) (ha j)

/-- Removing a value shrinks a cell in the `Shrink` sense. -/
theorem shrink_set_remove (cells : List Cell) (j val : Nat) :
    Shrink cells (cells.set j ((cellsGet cells j).remove_possible_value val)) := by
  constructor
  · simp
  · intro i
    rw [cellsGet_set]
    split
    · rename_i hc
      obtain ⟨rfl, _⟩ := hc
      unfold Cell.remove_possible_value
      split
      · exact ⟨rfl, List.filter_sublist _, rfl, rfl⟩
      · exact ⟨rfl, List.Sublist.refl _, rfl, rfl⟩
    · exact ⟨rfl, List.Sublist.refl _, rfl, rfl⟩

theorem elimValAt_shrink (val : Nat) (st : List Cell × Nat) (j : Nat) :
    Shrink st.1 (elimValAt val st j).1 := by
  unfold elimValAt
  dsimp only
  split
  · exact shrink_set_remove st.1 j val
  · exact shrinkRefl _

/-- Fold-invariant combinator: a property preserved by every step holds of
the fold result. -/
theorem foldl_preserve {α β : Type} {P : β → Prop} (f : β → α → β)
    (h : ∀ b a, P b → P (f b a)) :
    ∀ (l : List α) (b : β), P b → P (l.foldl f b) := by
  intro l
  induction l with
  | nil => intro b hb; exact hb
  | cons a t ih => intro b hb; exact ih (f b a) (h b a hb)

/-- Fold-relation combinator: a reflexive transitive relation that every
step extends relates the seed to the fold result. -/
theorem foldl_rel {α β : Type} (R : β → β → Prop) (f : β → α → β)
    (hstep : ∀ b a, R b (f b a)) (hrefl : ∀ b, R b b)
    (htrans : ∀ {x y z : β}, R x y → R y z → R x z) :
    ∀ (l : List α) (b : β), R b (l.foldl f b) := by
  intro l
  induction l with
  | nil => intro b; exact hrefl b
  | cons a t ih => intro b; exact htrans (hstep b a) (ih (f b a))

theorem elimValUnit_shrink (val : Nat) (idxs : List Nat) (st : List Cell × Nat) :
    Shrink st.1 (elimValUnit val idxs st).1 := by
  unfold elimValUnit
  exact foldl_rel (fun p q : List Cell × Nat => Shrink p.1 q.1) (elimValAt val)
    (fun b a => elimValAt_shrink val b a) (fun b => shrinkRefl _)
    (fun {x y z} (h1 : Shrink x.1 y.1) (h2 : Shrink y.1 z.1) => shrinkTrans h1 h2) idxs st

theorem sweepStep_shrink (t : TechOut) (i : Nat) :
    Shrink t.cells (sweepStep t i).cells ∧ (sweepStep t i).fills = t.fills := by
  unfold sweepStep
  dsimp only
  split
  · refine ⟨?_, rfl⟩
    exact shrinkTrans (shrinkTrans (elimValUnit_shrink _ _ _) (elimValUnit_shrink _ _ _))
      (elimValUnit_shrink _ _ _)
  · exact ⟨shrinkRefl _, rfl⟩

set_option maxRecDepth 4000 in
theorem elimSweep_shrink (cells : List Cell) :
    Shrink cells (elimSweep cells).cells ∧ (elimSweep cells).fills = 0 := by
  unfold elimSweep
  apply foldl_preserve (P := fun t => Shrink cells t.cells ∧ t.fills = 0) sweepStep
  · intro b a hb
    obtain ⟨h1, h2⟩ := sweepStep_shrink b a
    exact ⟨shrinkTrans hb.1 h1, h2.trans hb.2⟩
  · exact ⟨shrinkRefl _, rfl⟩

/-! ### Fill-step and technique-level evolution lemmas -/

theorem fillCell_of_singleton {x : Nat} {c : Cell} (h : c.possible_values = [x]) :
    fillCell c = { c with value := x, possible_values := [] } := by
  unfold fillCell
  simp [h]



theorem evoRefl (a : TechOut) : Evo a a :=
  ⟨Eq.refl _, Nat.le_refl _, fun _ => Eq.refl _, fun h => ⟨h, Eq.refl _⟩, fun h => h⟩

theorem evoTrans {a b c : TechOut} (h1 : Evo a b) (h2 : Evo b c) : Evo a c := by
  obtain ⟨l1, f1, v1, z1, w1⟩ := h1
  obtain ⟨l2, f2, v2, z2, w2⟩ := h2
  refine ⟨l2.trans l1, f1.trans f2, ?_, ?_, fun h => w2 (w1 h)⟩
  · intro he
    have hb : b.fills = a.fills := by omega
    rw [v2 (by omega), v1 hb]
  · intro h
    obtain ⟨hz1, he1⟩ := z1 h
    obtain ⟨hz2, he2⟩ := z2 hz1
    exact ⟨hz2, by omega⟩

/-- The candidate set of the target cell after a subset-exclusion step is a
sublist of what it was, and untouched cells are untouched: packaged as the
facts needed about `subElimStep`. -/
theorem subElimStep_evo (j : Nat) (st : TechOut) (val : Nat)
    (hj : (cellsGet st.cells j).value = 0 ∨ (cellsGet st.cells j).possible_values = []) :
    Evo st (subElimStep j st val) ∧
    ((cellsGet (subElimStep j st val).cells j).value = 0 ∨
      (cellsGet (subElimStep j st val).cells j).possible_values = []) := by
  unfold subElimStep
  dsimp only
  by_cases hmem : val ∈ (cellsGet st.cells j).possible_values
  · have hne : (cellsGet st.cells j).possible_values ≠ [] := by
      intro h
      rw [h] at hmem
      simp at hmem
    have hjlt : j < st.cells.length := pv_ne_nil_lt hne
    have hv0 : (cellsGet st.cells j).value = 0 := by
      rcases hj with h | h
      · exact h
      · exact absurd h hne
    set c := cellsGet st.cells j with hc
    have hrm : c.remove_possible_value val =
        { c with possible_values := c.possible_values.filter (fun x => x ≠ val) } := by
      unfold Cell.remove_possible_value
      rw [if_pos hmem]
    set c1 := c.remove_possible_value val with hc1
    have hc1v : c1.value = c.value := by rw [hrm]
    have hc1pv : c1.possible_values = c.possible_values.filter (fun x => x ≠ val) := by rw [hrm]
    have hget1 : cellsGet (st.cells.set j c1) j = c1 := by
      rw [cellsGet_set]
      simp [hjlt]
    have hval1 : valuesOf (st.cells.set j c1) = valuesOf st.cells :=
      valuesOf_set_of_eq (by rw [hc1v])
    rw [if_pos hmem]
    by_cases hlen : c1.possible_values.length = 1
    · rw [if_pos hlen]
      obtain ⟨x, hx⟩ := List.length_eq_one.mp hlen
      have hfc : fillCell c1 = { c1 with value := x, possible_values := [] } :=
        fillCell_of_singleton hx
      have hxmem : x ∈ c.possible_values := by
        have hm : x ∈ c1.possible_values := by rw [hx]; simp
        rw [hc1pv] at hm
        exact (List.mem_filter.mp hm).1
      have hcollapse : (st.cells.set j c1).set j (fillCell c1) = st.cells.set j (fillCell c1) :=
        List.set_set c1 (fillCell c1) st.cells j
      have hval2 : valuesOf ((st.cells.set j c1).set j (fillCell c1)) =
          (valuesOf st.cells).set j x := by
        rw [hcollapse, valuesOf_set, hfc]
      constructor
      · refine ⟨by simp, by dsimp only; omega, by intro h; dsimp only at h; omega, ?_, ?_⟩
        · intro hz
          have hx0 : x ≠ 0 := by
            intro h
            subst h
            exact hz j hxmem
          constructor
          · intro i hx2
            rw [hcollapse, cellsGet_set] at hx2
            split at hx2
            · rw [hfc] at hx2
              simp at hx2
            · exact hz i hx2
          · have hdrop : (((valuesOf st.cells).set j x).filter (fun v => v == 0)).length + 1 =
                ((valuesOf st.cells).filter (fun v => v == 0)).length := by
              apply countZero_set
              · rw [valuesOf_length]; exact hjlt
              · rw [← valuesOf_getD]; exact hv0
              · exact hx0
            dsimp only
            simp only [eCount]
            rw [hval2]
            omega
        · intro hw i y hy hvy
          rw [hcollapse, cellsGet_set] at hy hvy ⊢
          by_cases hcase : j = i ∧ j < st.cells.length
          · rw [if_pos hcase] at hy
            rw [hfc] at hy
            simp at hy
          · rw [if_neg hcase] at hy hvy ⊢
            exact hw i y hy hvy
      · right
        rw [hcollapse, cellsGet_set, if_pos ⟨rfl, hjlt⟩, hfc]
    · rw [if_neg hlen]
      constructor
      · refine ⟨by simp, Nat.le_refl _, fun _ => hval1, ?_, ?_⟩
        · intro hz
          refine ⟨?_, by rw [eCount_values_congr hval1]⟩
          intro i hx2
          rw [cellsGet_set] at hx2
          split at hx2
          · rename_i hcase
            obtain ⟨rfl, _⟩ := hcase
            rw [hc1pv] at hx2
            exact hz j (List.mem_filter.mp hx2).1
          · exact hz i hx2
        · intro hw i y hy hvy
          rw [cellsGet_set] at hy hvy ⊢
          by_cases hcase : j = i ∧ j < st.cells.length
          · rw [if_pos hcase] at hvy
            obtain ⟨rfl, _⟩ := hcase
            rw [hc1v, hv0] at hvy
            exact absurd rfl hvy
          · rw [if_neg hcase] at hy hvy ⊢
            exact hw i y hy hvy
      · left
        rw [hget1, hc1v]
        exact hv0
  · rw [if_neg hmem]
    exact ⟨evoRefl st, hj⟩


theorem subElimVals_evo (key : List Nat) (j : Nat) (st : TechOut)
    (hj : (cellsGet st.cells j).value = 0 ∨ (cellsGet st.cells j).possible_values = []) :
    Evo st (subElimVals key j st) := by
  unfold subElimVals
  induction key generalizing st with
  | nil => exact evoRefl st
  | cons val key ih =>
    rw [List.foldl_cons]
    obtain ⟨h1, h2⟩ := subElimStep_evo j st val hj
    exact evoTrans h1 (ih _ h2)

theorem subTargetStep_evo (g : List Nat × List Nat) (st : TechOut) (j : Nat) :
    Evo st (subTargetStep g st j) := by
  unfold subTargetStep
  dsimp only
  split
  · rename_i hcond
    exact subElimVals_evo g.1 j st (Or.inl hcond.2)
  · exact evoRefl st

theorem subGroupStep_evo (k : Nat) (unit : List Nat) (st : TechOut) (g : List Nat × List Nat) :
    Evo st (subGroupStep k unit st g) := by
  unfold subGroupStep
  split
  · exact foldl_rel Evo (subTargetStep g) (subTargetStep_evo g) evoRefl
      (fun h1 h2 => evoTrans h1 h2) unit st
  · exact evoRefl st

theorem subUnit_evo (k : Nat) (st : TechOut) (unit : List Nat) : Evo st (subUnit k st unit) := by
  unfold subUnit
  exact foldl_rel Evo (subGroupStep k unit) (subGroupStep_evo k unit) evoRefl
    (fun h1 h2 => evoTrans h1 h2) _ st

theorem subsetTechnique_evo (k : Nat) (cells : List Cell) :
    Evo { cells := cells, fills := 0, ops := 0, lsteps := 0 } (subsetTechnique k cells) := by
  unfold subsetTechnique
  exact foldl_rel Evo (subUnit k) (subUnit_evo k) evoRefl
    (fun h1 h2 => evoTrans h1 h2) allUnits _


/-! ### Fill-singles pass lemmas -/

theorem fillSingles_length (cs : List Cell) : (fillSingles cs).1.length = cs.length := by
  induction cs with
  | nil => rfl
  | cons c rest ih =>
    simp only [fillSingles]
    split <;> simp [ih]

theorem fillSingles_id_of_zero (cs : List Cell) :
    (fillSingles cs).2 = 0 → (fillSingles cs).1 = cs := by
  induction cs with
  | nil => intro _; rfl
  | cons c rest ih =>
    simp only [fillSingles]
    split
    · intro h
      simp at h
    · intro h
      simp only at h
      rw [ih h]

theorem fillSingles_count (cs : List Cell) :
    (fillSingles cs).2 = cs.countP (fun c => c.value == 0 && c.possible_values.length == 1) := by
  induction cs with
  | nil => rfl
  | cons c rest ih =>
    simp only [fillSingles]
    split
    · rename_i hcond
      have hb : (c.value == 0 && c.possible_values.length == 1) = true := by
        simp [hcond.1, hcond.2]
      simp [List.countP_cons, hb, ih]
    · rename_i hcond
      have hb : (c.value == 0 && c.possible_values.length == 1) = false := by
        rcases Decidable.not_and_iff_or_not.mp hcond with h | h <;> simp [h]
      simp [List.countP_cons, hb, ih]

theorem fillSingles_noZero_eCount (cs : List Cell)
    (h : ∀ c ∈ cs, 0 ∉ c.possible_values) :
    (∀ c ∈ (fillSingles cs).1, 0 ∉ c.possible_values) ∧
    eCount (fillSingles cs).1 + (fillSingles cs).2 = eCount cs := by
  induction cs with
  | nil => exact ⟨by simp [fillSingles], rfl⟩
  | cons c rest ih =>
    obtain ⟨ihz, ihe⟩ := ih (fun d hd => h d (List.mem_cons_of_mem c hd))
    have hc := h c (List.mem_cons_self c rest)
    simp only [fillSingles]
    split
    · rename_i hcond
      obtain ⟨x, hx⟩ := List.length_eq_one.mp hcond.2
      have hfc : fillCell c = { c with value := x, possible_values := [] } :=
        fillCell_of_singleton hx
      have hx0 : x ≠ 0 := by
        intro hzero
        subst hzero
        exact hc (by rw [hx]; simp)
      constructor
      · intro d hd
        rcases List.mem_cons.mp hd with rfl | hd
        · rw [hfc]
          simp
        · exact ihz d hd
      · simp only [eCount_cons, hfc, hcond.1]
        simp [hx0]
        omega
    · constructor
      · intro d hd
        rcases List.mem_cons.mp hd with rfl | hd
        · exact hc
        · exact ihz d hd
      · rw [eCount_cons, eCount_cons]
        omega

theorem fillSingles_invW (cs : List Cell)
    (h : ∀ c ∈ cs, ∀ x ∈ c.possible_values, c.value ≠ 0 → x = c.value) :
    ∀ c ∈ (fillSingles cs).1, ∀ x ∈ c.possible_values, c.value ≠ 0 → x = c.value := by
  induction cs with
  | nil => simp [fillSingles]
  | cons c rest ih =>
    have ihr := ih (fun d hd => h d (List.mem_cons_of_mem c hd))
    simp only [fillSingles]
    split
    · rename_i hcond
      obtain ⟨x, hx⟩ := List.length_eq_one.mp hcond.2
      intro d hd
      rcases List.mem_cons.mp hd with rfl | hd
      · rw [fillCell_of_singleton hx]
        simp
      · exact ihr d hd
    · intro d hd
      rcases List.mem_cons.mp hd with rfl | hd
      · exact h d (List.mem_cons_self d rest)
      · exact ihr d hd

/-- Per-index description of the fill-singles pass (used by the two-phase
claim): a singleton empty cell is replaced by its filled version, every
other cell is untouched. -/
theorem fillSingles_getD (cs : List Cell) (i : Nat) (hi : i < cs.length) :
    cellsGet (fillSingles cs).1 i =
      (if (cellsGet cs i).value = 0 ∧ (cellsGet cs i).possible_values.length = 1
       then fillCell (cellsGet cs i) else cellsGet cs i) := by
  induction cs generalizing i with
  | nil => simp at hi
  | cons c rest ih =>
    cases i with
    | zero =>
      simp only [fillSingles, cellsGet, List.getD_cons_zero]
      split <;> simp [cellsGet]
    | succ i =>
      have hrec := ih i (by simpa using hi)
      simp only [fillSingles, cellsGet, List.getD_cons_succ] at hrec ⊢
      split <;> simpa [cellsGet] using hrec

/-! ### Basic elimination and pipeline evolution -/

theorem basicElim_evo (cells : List Cell) :
    Evo { cells := cells, fills := 0, ops := 0, lsteps := 0 } (basicElim cells) := by
  obtain ⟨hs, hf0⟩ := elimSweep_shrink cells
  unfold basicElim
  dsimp only
  refine ⟨?_, by dsimp only; omega, ?_, ?_, ?_⟩
  · rw [fillSingles_length, hs.1]
  · intro h
    dsimp only at h
    rw [fillSingles_id_of_zero _ h, hs.valuesOf_eq]
  · intro hz
    dsimp only at hz ⊢
    have hz2 := hs.noZero hz
    obtain ⟨h1, h2⟩ := fillSingles_noZero_eCount (elimSweep cells).cells
      ((noZeroPV_iff _).mp hz2)
    refine ⟨(noZeroPV_iff _).mpr h1, ?_⟩
    rw [h2, eCount_values_congr hs.valuesOf_eq]
    omega
  · intro hw
    dsimp only at hw ⊢
    exact (invW_iff _).mpr
      (fillSingles_invW _ ((invW_iff _).mp (hs.invW hw)))

/-- Composing the `Evo` of one technique after another through `TechOut.add`. -/
theorem Evo.addTech {c0 : List Cell} {b s : TechOut}
    (h1 : Evo { cells := c0, fills := 0, ops := 0, lsteps := 0 } b)
    (h2 : Evo { cells := b.cells, fills := 0, ops := 0, lsteps := 0 } s) :
    Evo { cells := c0, fills := 0, ops := 0, lsteps := 0 } (b.add s) := by
  obtain ⟨l1, _, v1, z1, w1⟩ := h1
  obtain ⟨l2, _, v2, z2, w2⟩ := h2
  refine ⟨by simpa [TechOut.add] using l2.trans l1, by simp [TechOut.add], ?_, ?_, ?_⟩
  · intro h
    simp only [TechOut.add] at h ⊢
    have hb : b.fills = 0 := by omega
    have hsf : s.fills = 0 := by omega
    rw [v2 (by simpa using hsf), v1 (by simpa using hb)]
  · intro hz
    simp only at hz
    obtain ⟨hz1, he1⟩ := z1 hz
    obtain ⟨hz2, he2⟩ := z2 hz1
    dsimp only at he1 he2
    simp only [TechOut.add]
    exact ⟨hz2, by omega⟩
  · intro hw
    simp only at hw
    simp only [TechOut.add]
    exact w2 (w1 hw)

theorem pipeOnce_evo (cfg : Cfg) (cells : List Cell) :
    Evo { cells := cells, fills := 0, ops := 0, lsteps := 0 } (pipeOnce cfg cells) := by
  unfold pipeOnce
  dsimp only
  have hb := basicElim_evo cells
  have hp : Evo { cells := cells, fills := 0, ops := 0, lsteps := 0 }
      (if cfg.use_pairs then (basicElim cells).add (subsetTechnique 2 (basicElim cells).cells)
       else basicElim cells) := by
    split
    · exact hb.addTech (subsetTechnique_evo 2 _)
    · exact hb
  split
  · exact hp.addTech (subsetTechnique_evo 3 _)
  · exact hp


/-! ### `is_solved` depends only on the value vector -/

theorem is_satisfied_congr {a b : List Cell} (u : List Nat) (h : valuesOf a = valuesOf b) :
    is_satisfied (unitCells a u) = is_satisfied (unitCells b u) := by
  have hmap : (unitCells a u).map Cell.value = (unitCells b u).map Cell.value := by
    simp only [unitCells, List.map_map]
    apply List.map_congr_left
    intro i _
    simp only [Function.comp_apply]
    rw [valuesOf_getD, valuesOf_getD, h]
  simp only [is_satisfied, hmap]

theorem is_solved_congr {a b : List Cell} (h : valuesOf a = valuesOf b) :
    is_solved a = is_solved b := by
  have hb : (fun i => is_satisfied (unitCells a (boxIdx i))) =
      (fun i => is_satisfied (unitCells b (boxIdx i))) :=
    funext fun i => is_satisfied_congr _ h
  have hr : (fun i => is_satisfied (unitCells a (rowIdx i))) =
      (fun i => is_satisfied (unitCells b (rowIdx i))) :=
    funext fun i => is_satisfied_congr _ h
  have hc : (fun i => is_satisfied (unitCells a (colIdx i))) =
      (fun i => is_satisfied (unitCells b (colIdx i))) :=
    funext fun i => is_satisfied_congr _ h
  simp only [is_solved, hb, hr, hc]

/-! ### Elimination-loop lemmas -/

theorem elimLoop_of_terminal (cfg : Cfg) (fuel : Nat) (s : SolverSt)
    (h : s.solved = true ∨ s.unsolvable = true) : elimLoop cfg fuel s = s := by
  cases fuel with
  | zero => rfl
  | succ fuel =>
    simp only [elimLoop]
    rw [if_pos (by rcases h with h | h <;> simp [h])]

theorem elimStepRes_unsolvable_of_stop (cfg : Cfg) (s : SolverSt)
    (h : (elimStepRes cfg s).1 = false) :
    (elimStepRes cfg s).2.unsolvable = true ∧ (elimStepRes cfg s).2.solved = s.solved := by
  unfold elimStepRes at h ⊢
  dsimp only at h ⊢
  by_cases h1 : (pipeOnce cfg s.cells).fills = 0
  · rw [if_pos h1] at h ⊢
    by_cases h2 : 5 ≤ s.iterations_without_progress + 1
    · rw [if_pos h2]
      exact ⟨rfl, rfl⟩
    · rw [if_neg h2] at h
      simp at h
  · rw [if_neg h1] at h
    simp at h

theorem elimStepRes_flags_of_continue (cfg : Cfg) (s : SolverSt)
    (h : (elimStepRes cfg s).1 = true) :
    (elimStepRes cfg s).2.unsolvable = s.unsolvable := by
  unfold elimStepRes at h ⊢
  dsimp only at h ⊢
  by_cases h1 : (pipeOnce cfg s.cells).fills = 0
  · rw [if_pos h1] at h ⊢
    by_cases h2 : 5 ≤ s.iterations_without_progress + 1
    · rw [if_pos h2] at h
      simp at h
    · rw [if_neg h2]
  · rw [if_neg h1]

theorem elimLoop_not_both (cfg : Cfg) :
    ∀ (fuel : Nat) (s : SolverSt), ¬(s.solved = true ∧ s.unsolvable = true) →
      ¬((elimLoop cfg fuel s).solved = true ∧ (elimLoop cfg fuel s).unsolvable = true) := by
  intro fuel
  induction fuel with
  | zero => intro s h; exact h
  | succ fuel ih =>
    intro s h
    simp only [elimLoop]
    split
    · exact h
    · rename_i hguard
      have hns : s.solved = false := by
        rcases Bool.or_eq_false_iff.mp (Bool.not_eq_true _ |>.mp (by simpa using hguard)) with ⟨h1, _⟩
        exact h1
      have hnu : s.unsolvable = false := by
        rcases Bool.or_eq_false_iff.mp (Bool.not_eq_true _ |>.mp (by simpa using hguard)) with ⟨_, h2⟩
        exact h2
      by_cases hc : (elimStepRes cfg s).1 = true
      · rw [if_pos hc]
        apply ih
        intro hboth
        rw [elimStepRes_flags_of_continue cfg s hc, hnu] at hboth
        exact Bool.false_ne_true hboth.2
      · rw [if_neg hc]
        obtain ⟨_, h2⟩ := elimStepRes_unsolvable_of_stop cfg s (by simpa using hc)
        intro hboth
        rw [h2, hns] at hboth
        exact Bool.false_ne_true hboth.1


theorem elimStepRes_cells (cfg : Cfg) (s : SolverSt) :
    (elimStepRes cfg s).2.cells = (pipeOnce cfg s.cells).cells := by
  unfold elimStepRes
  dsimp only
  split
  · split <;> rfl
  · rfl

theorem elimStepRes_iters (cfg : Cfg) (s : SolverSt) :
    (elimStepRes cfg s).2.solver_iterations = s.solver_iterations + 1 := by
  unfold elimStepRes
  dsimp only
  split
  · split <;> rfl
  · rfl

theorem elimStepRes_iwp (cfg : Cfg) (s : SolverSt) :
    (elimStepRes cfg s).2.iterations_without_progress =
      if (pipeOnce cfg s.cells).fills = 0 then s.iterations_without_progress + 1 else 0 := by
  unfold elimStepRes
  dsimp only
  split
  · split <;> rfl
  · rfl

/-- Main descent lemma for the elimination loop: the measure
`6 * (number of empty cells) + 6 - iterations_without_progress` bounds the
number of loop iterations still possible, so any fuel at least the measure
reaches a terminal state. -/
theorem elimLoop_terminal (cfg : Cfg) :
    ∀ (fuel : Nat) (s : SolverSt), noZeroPV s.cells →
      s.iterations_without_progress ≤ 5 →
      6 * eCount s.cells + 6 - s.iterations_without_progress ≤ fuel →
      (elimLoop cfg fuel s).solved = true ∨ (elimLoop cfg fuel s).unsolvable = true := by
  intro fuel
  induction fuel with
  | zero =>
    intro s _ hiwp hm
    omega
  | succ fuel ih =>
    intro s hz hiwp hm
    simp only [elimLoop]
    split
    · rename_i hguard
      rcases Bool.or_eq_true_iff.mp hguard with h | h
      · exact Or.inl h
      · exact Or.inr h
    · rename_i hguard
      obtain ⟨hlen, hfill, hval, hzz, hw⟩ := pipeOnce_evo cfg s.cells
      dsimp only at hzz
      obtain ⟨hz2, he⟩ := hzz hz
      by_cases hf : (pipeOnce cfg s.cells).fills = 0
      · by_cases h5 : 5 ≤ s.iterations_without_progress + 1
        · have hstop : (elimStepRes cfg s).1 = false := by
            unfold elimStepRes
            dsimp only
            rw [if_pos hf, if_pos h5]
          rw [if_neg (by simp [hstop])]
          exact Or.inr (elimStepRes_unsolvable_of_stop cfg s hstop).1
        · have hcont : (elimStepRes cfg s).1 = true := by
            unfold elimStepRes
            dsimp only
            rw [if_pos hf, if_neg h5]
          rw [if_pos hcont]
          apply ih
          · rw [elimStepRes_cells]
            exact hz2
          · rw [elimStepRes_iwp, if_pos hf]
            omega
          · rw [elimStepRes_iwp, if_pos hf, elimStepRes_cells]
            omega
      · have hcont : (elimStepRes cfg s).1 = true := by
          unfold elimStepRes
          dsimp only
          rw [if_neg hf]
        rw [if_pos hcont]
        apply ih
        · rw [elimStepRes_cells]
          exact hz2
        · rw [elimStepRes_iwp, if_neg hf]
          omega
        · rw [elimStepRes_iwp, if_neg hf, elimStepRes_cells]
          omega

/-- Once terminal, extra fuel changes nothing. -/
theorem elimLoop_stable (cfg : Cfg) :
    ∀ (fuel fuel2 : Nat) (s : SolverSt), fuel ≤ fuel2 →
      ((elimLoop cfg fuel s).solved = true ∨ (elimLoop cfg fuel s).unsolvable = true) →
      elimLoop cfg fuel2 s = elimLoop cfg fuel s := by
  intro fuel
  induction fuel with
  | zero =>
    intro fuel2 s _ hterm
    exact elimLoop_of_terminal cfg fuel2 s hterm
  | succ fuel ih =>
    intro fuel2 s hle hterm
    cases fuel2 with
    | zero => omega
    | succ fuel2 =>
      simp only [elimLoop] at hterm ⊢
      by_cases hguard : (s.solved || s.unsolvable) = true
      · rw [if_pos hguard, if_pos hguard]
      · rw [if_neg hguard] at hterm
        rw [if_neg hguard, if_neg hguard]
        by_cases hc : (elimStepRes cfg s).1 = true
        · rw [if_pos hc] at hterm
          rw [if_pos hc, if_pos hc]
          exact ih fuel2 _ (Nat.le_of_succ_le_succ hle) hterm
        · rw [if_neg hc] at hterm
          rw [if_neg hc, if_neg hc]


theorem elimStepRes_stall (cfg : Cfg) (s : SolverSt)
    (hf : (pipeOnce cfg s.cells).fills = 0)
    (h5 : s.iterations_without_progress + 1 < 5) :
    (elimStepRes cfg s).1 = true ∧
    (elimStepRes cfg s).2.cells = pIter cfg s.cells ∧
    (elimStepRes cfg s).2.solved = is_solved (pIter cfg s.cells) ∧
    (elimStepRes cfg s).2.unsolvable = s.unsolvable ∧
    (elimStepRes cfg s).2.iterations_without_progress = s.iterations_without_progress + 1 ∧
    (elimStepRes cfg s).2.solver_iterations = s.solver_iterations + 1 := by
  unfold elimStepRes
  dsimp only
  rw [if_pos hf, if_neg (by omega)]
  exact ⟨rfl, rfl, rfl, rfl, rfl, rfl⟩

theorem elimStepRes_break (cfg : Cfg) (s : SolverSt)
    (hf : (pipeOnce cfg s.cells).fills = 0)
    (h5 : 5 ≤ s.iterations_without_progress + 1) :
    (elimStepRes cfg s).1 = false ∧
    (elimStepRes cfg s).2.solved = s.solved ∧
    (elimStepRes cfg s).2.unsolvable = true ∧
    (elimStepRes cfg s).2.iterations_without_progress = s.iterations_without_progress + 1 ∧
    (elimStepRes cfg s).2.solver_iterations = s.solver_iterations + 1 := by
  unfold elimStepRes
  dsimp only
  rw [if_pos hf, if_pos h5]
  exact ⟨rfl, rfl, rfl, rfl, rfl⟩

/-- A run of `m` consecutive zero-fill iterations starting with
`iterations_without_progress + m = 5` ends the loop by stagnation: the
final state has `unsolvable = true`, `solved` still false,
`iterations_without_progress = 5`, and exactly `m` more solver iterations. -/
theorem elimLoop_stall_run (cfg : Cfg) :
    ∀ (m : Nat) (s : SolverSt) (fuel : Nat), 1 ≤ m →
      s.solved = false → s.unsolvable = false →
      s.iterations_without_progress + m = 5 →
      is_solved s.cells = false →
      (∀ k, k < m → (pipeOnce cfg ((pIter cfg)^[k] s.cells)).fills = 0) →
      m ≤ fuel →
      (elimLoop cfg fuel s).unsolvable = true ∧
      (elimLoop cfg fuel s).solved = false ∧
      (elimLoop cfg fuel s).solver_iterations = s.solver_iterations + m ∧
      (elimLoop cfg fuel s).iterations_without_progress = 5 := by
  intro m
  induction m with
  | zero => intro s fuel h1; omega
  | succ m ih =>
    intro s fuel h1 hsol hunsol hiwp hisolved hfz hfuel
    have hf0 : (pipeOnce cfg s.cells).fills = 0 := by
      have := hfz 0 (by omega)
      simpa using this
    cases fuel with
    | zero => omega
    | succ fuel =>
      simp only [elimLoop]
      rw [if_neg (by simp [hsol, hunsol])]
      cases m with
      | zero =>
        obtain ⟨hstop, hbs, hbu, hbi, hbit⟩ := elimStepRes_break cfg s hf0 (by omega)
        rw [if_neg (by simp [hstop])]
        exact ⟨hbu, by rw [hbs, hsol], by rw [hbit], by rw [hbi]; omega⟩
      | succ m =>
        obtain ⟨hcont, hcells, hsolved2, hunsol2, hiwp2, hiter2⟩ :=
          elimStepRes_stall cfg s hf0 (by omega)
        rw [if_pos hcont]
        have hvals : valuesOf (pIter cfg s.cells) = valuesOf s.cells := by
          obtain ⟨_, _, hval, _, _⟩ := pipeOnce_evo cfg s.cells
          dsimp only at hval
          exact hval hf0
        have hisolved2 : is_solved (pIter cfg s.cells) = false := by
          rw [is_solved_congr hvals]
          exact hisolved
        have hres := ih (elimStepRes cfg s).2 fuel (by omega)
          (by rw [hsolved2]; exact hisolved2)
          (by rw [hunsol2]; exact hunsol)
          (by rw [hiwp2]; omega)
          (by rw [hcells]; exact hisolved2)
          (by
            intro k hk
            rw [hcells, ← Function.iterate_succ_apply]
            exact hfz (k + 1) (by omega))
          (by omega)
        obtain ⟨r1, r2, r3, r4⟩ := hres
        exact ⟨r1, r2, by rw [r3, hiter2]; omega, r4⟩


/-! ### Random-strategy lemmas -/

theorem validValues_sublist (cells : List Cell) (i : Nat) :
    (validValuesForIdx cells i).Sublist digits := by
  unfold validValuesForIdx
  dsimp only
  split
  · exact List.nil_sublist digits
  · have hstep : ∀ (start : List Nat) (cs : List Cell),
        (cs.foldl (fun acc cc =>
          if cc.value ≠ 0 then acc.filter (fun x => x ≠ cc.value) else acc) start).Sublist start := by
      intro start cs
      exact foldl_rel (fun a b : List Nat => b.Sublist a) _
        (fun b a => by
          dsimp only
          split
          · exact List.filter_sublist b
          · exact List.Sublist.refl b)
        (fun b => List.Sublist.refl b)
        (fun h1 h2 => h2.trans h1) cs start
    exact ((hstep _ _).trans (hstep _ _)).trans (hstep _ _)

theorem mem_digits_ne_zero {x : Nat} (hx : x ∈ digits) : x ≠ 0 := by
  intro h0
  subst h0
  simp [digits] at hx

theorem mem_emptiesOf {cells : List Cell} {i : Nat} :
    i ∈ emptiesOf cells ↔ i < cells.length ∧ (cellsGet cells i).value = 0 := by
  simp [emptiesOf, List.mem_filter, List.mem_range]

theorem getD_mod_mem {l : List Nat} (h : 0 < l.length) (k : Nat) :
    l.getD (k % l.length) 0 ∈ l := by
  have hlt : k % l.length < l.length := Nat.mod_lt _ h
  rw [List.getD_eq_getElem?_getD, List.getElem?_eq_getElem hlt]
  exact List.getElem_mem hlt

theorem randFill_eCount (cells : List Cell) (i v : Nat) (hi : i < cells.length)
    (hv0 : (cellsGet cells i).value = 0) (hv : v ≠ 0) (c1 : Cell) (hc1 : c1.value = v) :
    eCount (cells.set i c1) + 1 = eCount cells := by
  simp only [eCount, valuesOf_set, hc1]
  apply countZero_set
  · rw [valuesOf_length]
    exact hi
  · rw [← valuesOf_getD]
    exact hv0
  · exact hv

theorem randLoop_attempt_le (oracle : Nat → Nat) :
    ∀ (fuel : Nat) (s : SolverSt) (a t : Nat), (randLoop oracle fuel s a t).2 ≤ a + fuel := by
  intro fuel
  induction fuel with
  | zero => intro s a t; simp [randLoop]
  | succ fuel ih =>
    intro s a t
    simp only [randLoop]
    split
    · omega
    · split
      · dsimp only; omega
      · split
        · dsimp only; omega
        · exact Nat.le_trans (ih _ (a + 1) (t + 2)) (by omega)

theorem randLoop_attempt_bound (oracle : Nat → Nat) :
    ∀ (fuel : Nat) (s : SolverSt) (a t : Nat),
      (randLoop oracle fuel s a t).2 ≤ a + eCount s.cells + 1 := by
  intro fuel
  induction fuel with
  | zero => intro s a t; simp [randLoop]; omega
  | succ fuel ih =>
    intro s a t
    simp only [randLoop]
    split
    · omega
    · split
      · dsimp only; omega
      · split
        · dsimp only; omega
        · rename_i hguard hemp hvv
          have hne : 0 < (emptiesOf s.cells).length := Nat.pos_of_ne_zero hemp
          have himem : (emptiesOf s.cells).getD (oracle t % (emptiesOf s.cells).length) 0 ∈
              emptiesOf s.cells := getD_mod_mem hne _
          obtain ⟨hilt, hival⟩ := mem_emptiesOf.mp himem
          have hvne : 0 < (validValuesForIdx s.cells
              ((emptiesOf s.cells).getD (oracle t % (emptiesOf s.cells).length) 0)).length :=
            Nat.pos_of_ne_zero hvv
          have hvmem := getD_mod_mem hvne (oracle (t + 1))
          have hvdig := (validValues_sublist s.cells
            ((emptiesOf s.cells).getD (oracle t % (emptiesOf s.cells).length) 0)).subset hvmem
          have hvne0 := mem_digits_ne_zero hvdig
          refine Nat.le_trans (ih _ (a + 1) (t + 2)) ?_
          dsimp only
          have hgen : ∀ e f : Nat, e + 1 = f → a + 1 + e + 1 ≤ a + f + 1 := by
            intro e f h
            omega
          exact hgen _ _ (randFill_eCount s.cells _ _ hilt hival hvne0 _ rfl)

theorem randLoop_not_both (oracle : Nat → Nat) :
    ∀ (fuel : Nat) (s : SolverSt) (a t : Nat),
      ¬(s.solved = true ∧ s.unsolvable = true) →
      ¬((randLoop oracle fuel s a t).1.solved = true ∧
        (randLoop oracle fuel s a t).1.unsolvable = true) := by
  intro fuel
  induction fuel with
  | zero => intro s a t h; exact h
  | succ fuel ih =>
    intro s a t h
    simp only [randLoop]
    split
    · exact h
    · rename_i hguard
      have hns : s.solved = false ∧ s.unsolvable = false := by
        have h2 : (s.solved || s.unsolvable) = false := by
          cases hb : (s.solved || s.unsolvable)
          · rfl
          · exact absurd hb hguard
        exact Bool.or_eq_false_iff.mp h2
      split
      · dsimp only
        intro hboth
        rw [hns.2] at hboth
        exact Bool.false_ne_true hboth.2
      · split
        · dsimp only
          intro hboth
          rw [hns.1] at hboth
          exact Bool.false_ne_true hboth.1
        · apply ih
          dsimp only
          intro hboth
          rw [hns.2] at hboth
          exact Bool.false_ne_true hboth.2


/-! ### Sweep-specific lemmas (for the basic-elimination claim) -/

theorem mem_rowIdx_of {i j : Nat} (hj : j < 81) (h : j / 9 = i / 9) : j ∈ rowIdx (i / 9) := by
  simp only [rowIdx, List.mem_map, List.mem_range]
  exact ⟨j % 9, by omega, by omega⟩

theorem mem_colIdx_of {i j : Nat} (hj : j < 81) (h : j % 9 = i % 9) : j ∈ colIdx (i % 9) := by
  simp only [colIdx, List.mem_map, List.mem_range]
  exact ⟨j / 9, by omega, by omega⟩

theorem mem_boxIdx_of {j b : Nat} (hj : j < 81) (h : boxIdxOf (j / 9) (j % 9) = b) :
    j ∈ boxIdx b := by
  simp only [boxIdx, List.mem_filter, List.mem_range]
  exact ⟨hj, by simpa using h⟩

theorem elimValAt_removes (val : Nat) (st : List Cell × Nat) (a : Nat) :
    val ∉ (cellsGet (elimValAt val st a).1 a).possible_values := by
  unfold elimValAt
  dsimp only
  split
  · rename_i hmem
    have ha : a < st.1.length := pv_ne_nil_lt (by
      intro hnil
      rw [hnil] at hmem
      simp at hmem)
    rw [cellsGet_set, if_pos ⟨rfl, ha⟩]
    unfold Cell.remove_possible_value
    rw [if_pos hmem]
    simp
  · rename_i hmem
    exact hmem

theorem elimValUnit_removes (val : Nat) (idxs : List Nat) (st : List Cell × Nat) :
    ∀ j ∈ idxs, val ∉ (cellsGet (elimValUnit val idxs st).1 j).possible_values := by
  induction idxs generalizing st with
  | nil => simp
  | cons a rest ih =>
    intro j hj
    rcases List.mem_cons.mp hj with rfl | hj
    · unfold elimValUnit
      rw [List.foldl_cons]
      have h1 := elimValAt_removes val st j
      have hs := elimValUnit_shrink val rest (elimValAt val st j)
      intro hmem
      exact h1 (((hs.2 j).2.1).mem hmem)
    · unfold elimValUnit
      rw [List.foldl_cons]
      have hres := ih (elimValAt val st a) j hj
      simpa [elimValUnit] using hres

theorem sweepStep_lsteps (t : TechOut) (i : Nat) :
    (sweepStep t i).lsteps =
      t.lsteps + (if (cellsGet t.cells i).value ≠ 0 then 1 else 0) := by
  unfold sweepStep
  dsimp only
  split
  · rfl
  · simp

theorem sweepStep_removes (t : TechOut) (i : Nat)
    (h : (cellsGet t.cells i).value ≠ 0) :
    ∀ j, (j ∈ rowIdx (cellsGet t.cells i).x_pos_abs ∨
          j ∈ colIdx (cellsGet t.cells i).y_pos_abs ∨
          j ∈ boxIdx (boxIdxOf (cellsGet t.cells i).x_pos_abs (cellsGet t.cells i).y_pos_abs)) →
      (cellsGet t.cells i).value ∉ (cellsGet (sweepStep t i).cells j).possible_values := by
  intro j hj
  unfold sweepStep
  dsimp only
  rw [if_pos h]
  dsimp only
  rcases hj with hj | hj | hj
  · have h1 := elimValUnit_removes (cellsGet t.cells i).value
      (rowIdx (cellsGet t.cells i).x_pos_abs) (t.cells, t.ops) j hj
    have hs2 := elimValUnit_shrink (cellsGet t.cells i).value
      (colIdx (cellsGet t.cells i).y_pos_abs)
      (elimValUnit (cellsGet t.cells i).value (rowIdx (cellsGet t.cells i).x_pos_abs)
        (t.cells, t.ops))
    have hs3 := elimValUnit_shrink (cellsGet t.cells i).value
      (boxIdx (boxIdxOf (cellsGet t.cells i).x_pos_abs (cellsGet t.cells i).y_pos_abs))
      (elimValUnit (cellsGet t.cells i).value (colIdx (cellsGet t.cells i).y_pos_abs)
        (elimValUnit (cellsGet t.cells i).value (rowIdx (cellsGet t.cells i).x_pos_abs)
          (t.cells, t.ops)))
    intro hmem
    exact h1 ((hs2.2 j).2.1.mem ((hs3.2 j).2.1.mem hmem))
  · have h1 := elimValUnit_removes (cellsGet t.cells i).value
      (colIdx (cellsGet t.cells i).y_pos_abs)
      (elimValUnit (cellsGet t.cells i).value (rowIdx (cellsGet t.cells i).x_pos_abs)
        (t.cells, t.ops)) j hj
    have hs3 := elimValUnit_shrink (cellsGet t.cells i).value
      (boxIdx (boxIdxOf (cellsGet t.cells i).x_pos_abs (cellsGet t.cells i).y_pos_abs))
      (elimValUnit (cellsGet t.cells i).value (colIdx (cellsGet t.cells i).y_pos_abs)
        (elimValUnit (cellsGet t.cells i).value (rowIdx (cellsGet t.cells i).x_pos_abs)
          (t.cells, t.ops)))
    intro hmem
    exact h1 ((hs3.2 j).2.1.mem hmem)
  · exact elimValUnit_removes _ _ _ j hj


/-- After the fold has processed every index of `l`, the value of each
processed filled cell is absent from the candidate set of every cell of its
row, column and box (positions and values read from the fold-initial board,
which the sweep never changes). -/
theorem sweep_fold_removes (l : List Nat) (t : TechOut) :
    ∀ i ∈ l, (cellsGet t.cells i).value ≠ 0 →
      ∀ j, (j ∈ rowIdx (cellsGet t.cells i).x_pos_abs ∨
            j ∈ colIdx (cellsGet t.cells i).y_pos_abs ∨
            j ∈ boxIdx (boxIdxOf (cellsGet t.cells i).x_pos_abs (cellsGet t.cells i).y_pos_abs)) →
        (cellsGet t.cells i).value ∉ (cellsGet (l.foldl sweepStep t).cells j).possible_values := by
  induction l generalizing t with
  | nil => simp
  | cons a rest ih =>
    intro i hi hv j hj
    obtain ⟨hsh, _⟩ := sweepStep_shrink t a
    rcases List.mem_cons.mp hi with rfl | hi
    · rw [List.foldl_cons]
      have h1 := sweepStep_removes t i hv j hj
      have hrest : Shrink (sweepStep t i).cells ((rest.foldl sweepStep (sweepStep t i)).cells) := by
        have := elimSweep_shrink
        exact (foldl_preserve
          (P := fun u : TechOut => Shrink (sweepStep t i).cells u.cells) sweepStep
          (fun b x hb => shrinkTrans hb (sweepStep_shrink b x).1) rest _ (shrinkRefl _))
      intro hmem
      exact h1 ((hrest.2 j).2.1.mem hmem)
    · rw [List.foldl_cons]
      have hvv := (hsh.2 i).1
      have hxx := (hsh.2 i).2.2.1
      have hyy := (hsh.2 i).2.2.2
      have hres := ih (sweepStep t a) i hi (by rw [hvv]; exact hv) j
        (by rw [hxx, hyy]; exact hj)
      rw [hvv] at hres
      exact hres

theorem sweep_fold_lsteps (l : List Nat) (t : TechOut) :
    (l.foldl sweepStep t).lsteps =
      t.lsteps + l.countP (fun i => (cellsGet t.cells i).value != 0) := by
  induction l generalizing t with
  | nil => simp
  | cons a rest ih =>
    rw [List.foldl_cons, List.countP_cons, ih (sweepStep t a)]
    obtain ⟨hsh, _⟩ := sweepStep_shrink t a
    have hcong : rest.countP (fun i => (cellsGet (sweepStep t a).cells i).value != 0) =
        rest.countP (fun i => (cellsGet t.cells i).value != 0) := by
      apply List.countP_congr
      intro i _
      rw [(hsh.2 i).1]
    rw [hcong, sweepStep_lsteps]
    by_cases hv : (cellsGet t.cells a).value ≠ 0
    · have hb : ((cellsGet t.cells a).value != 0) = true := by simpa using hv
      rw [if_pos hv, hb, if_pos rfl]
      omega
    · have hb : ((cellsGet t.cells a).value != 0) = false := by simpa using hv
      rw [if_neg hv, hb, if_neg Bool.false_ne_true]
      omega


/-! ### Elimination-operation accounting -/

theorem filter_ne_length {l : List Nat} {x : Nat} (hnd : l.Nodup) (hx : x ∈ l) :
    (l.filter (fun y => y ≠ x)).length + 1 = l.length := by
  induction l with
  | nil => simp at hx
  | cons a rest ih =>
    by_cases ha : a = x
    · subst ha
      have hnotin : a ∉ rest := (List.nodup_cons.mp hnd).1
      have hall : rest.filter (fun y => y ≠ a) = rest := by
        apply List.filter_eq_self.mpr
        intro y hy
        have hne : y ≠ a := fun heq => hnotin (heq ▸ hy)
        simpa using hne
      have hb : (decide (a ≠ a)) = false := by simp
      rw [List.filter_cons, hb, if_neg Bool.false_ne_true, hall, List.length_cons]
    · have hx2 : x ∈ rest := by
        rcases List.mem_cons.mp hx with heq | h
        · exact absurd heq.symm ha
        · exact h
      have hb : (decide (a ≠ x)) = true := by simpa using ha
      have hrec := ih (List.nodup_cons.mp hnd).2 hx2
      simp only [List.filter_cons, hb, if_true, List.length_cons]
      omega

theorem totalPV_set (l : List Cell) (j : Nat) (c : Cell) (hj : j < l.length) :
    totalPV (l.set j c) + (cellsGet l j).possible_values.length =
      totalPV l + c.possible_values.length := by
  induction l generalizing j with
  | nil => simp at hj
  | cons a rest ih =>
    cases j with
    | zero => simp [totalPV, cellsGet]; omega
    | succ j =>
      have hrec := ih j (by simpa using hj)
      simp only [List.set, totalPV, List.map_cons, List.sum_cons, cellsGet,
        List.getD_cons_succ] at hrec ⊢
      omega

theorem elimValAt_ops (val : Nat) (st : List Cell × Nat) (a : Nat)
    (hnd : nodupPV st.1) :
    (elimValAt val st a).2 + totalPV (elimValAt val st a).1 = st.2 + totalPV st.1 := by
  unfold elimValAt
  dsimp only
  split
  · rename_i hmem
    have ha : a < st.1.length := pv_ne_nil_lt (by
      intro hnil
      rw [hnil] at hmem
      simp at hmem)
    have hset := totalPV_set st.1 a ((cellsGet st.1 a).remove_possible_value val) ha
    have hrm : ((cellsGet st.1 a).remove_possible_value val).possible_values =
        (cellsGet st.1 a).possible_values.filter (fun y => y ≠ val) := by
      unfold Cell.remove_possible_value
      rw [if_pos hmem]
    have hlen := filter_ne_length (hnd a) hmem
    rw [hrm] at hset
    dsimp only
    omega
  · rfl

theorem elimValUnit_ops (val : Nat) (idxs : List Nat) (st : List Cell × Nat)
    (hnd : nodupPV st.1) :
    (elimValUnit val idxs st).2 + totalPV (elimValUnit val idxs st).1 = st.2 + totalPV st.1 := by
  induction idxs generalizing st with
  | nil => rfl
  | cons a rest ih =>
    unfold elimValUnit
    rw [List.foldl_cons]
    have hnd2 : nodupPV (elimValAt val st a).1 :=
      (elimValAt_shrink val st a).nodup hnd
    have hrec := ih (elimValAt val st a) hnd2
    unfold elimValUnit at hrec
    rw [hrec]
    exact elimValAt_ops val st a hnd

theorem sweepStep_ops (t : TechOut) (i : Nat) (hnd : nodupPV t.cells) :
    (sweepStep t i).ops + totalPV (sweepStep t i).cells = t.ops + totalPV t.cells := by
  unfold sweepStep
  dsimp only
  split
  · have h1 := elimValUnit_ops (cellsGet t.cells i).value
      (rowIdx (cellsGet t.cells i).x_pos_abs) (t.cells, t.ops) hnd
    have hnd1 : nodupPV (elimValUnit (cellsGet t.cells i).value
        (rowIdx (cellsGet t.cells i).x_pos_abs) (t.cells, t.ops)).1 :=
      (elimValUnit_shrink _ _ _).nodup hnd
    have h2 := elimValUnit_ops (cellsGet t.cells i).value
      (colIdx (cellsGet t.cells i).y_pos_abs) _ hnd1
    have hnd2 : nodupPV (elimValUnit (cellsGet t.cells i).value
        (colIdx (cellsGet t.cells i).y_pos_abs)
        (elimValUnit (cellsGet t.cells i).value (rowIdx (cellsGet t.cells i).x_pos_abs)
          (t.cells, t.ops))).1 :=
      (elimValUnit_shrink _ _ _).nodup hnd1
    have h3 := elimValUnit_ops (cellsGet t.cells i).value
      (boxIdx (boxIdxOf (cellsGet t.cells i).x_pos_abs (cellsGet t.cells i).y_pos_abs)) _ hnd2
    dsimp only at h1 h2 h3 ⊢
    omega
  · rfl

theorem sweep_fold_ops (l : List Nat) (t : TechOut) (hnd : nodupPV t.cells) :
    (l.foldl sweepStep t).ops + totalPV (l.foldl sweepStep t).cells = t.ops + totalPV t.cells := by
  induction l generalizing t with
  | nil => rfl
  | cons a rest ih =>
    rw [List.foldl_cons]
    have hnd2 : nodupPV (sweepStep t a).cells := (sweepStep_shrink t a).1.nodup hnd
    rw [ih (sweepStep t a) hnd2]
    exact sweepStep_ops t a hnd


/-! ### Unit satisfaction vs multisets -/



theorem is_satisfied_eq (cs : List Cell) :
    is_satisfied cs = setEqList (nonzeroValues cs) digits := rfl

theorem setEqList_iff (a b : List Nat) :
    setEqList a b = true ↔ (∀ x ∈ a, x ∈ b) ∧ (∀ x ∈ b, x ∈ a) := by
  simp [setEqList, List.all_eq_true, List.contains]

theorem setEq_digits_iff (l : List Nat) (hlen : l.length ≤ 9) :
    setEqList l digits = true ↔ (l : Multiset Nat) = (digits : Multiset Nat) := by
  rw [setEqList_iff]
  constructor
  · rintro ⟨h1, h2⟩
    have hnd : digits.Nodup := by decide
    have hsub : digits.Subperm l := hnd.subperm h2
    have hperm : digits.Perm l := hsub.perm_of_length_le (by simpa [digits] using hlen)
    exact Multiset.coe_eq_coe.mpr hperm.symm
  · intro h
    have hperm : l.Perm digits := Multiset.coe_eq_coe.mp h
    constructor
    · intro x hx
      exact hperm.mem_iff.mp hx
    · intro x hx
      exact hperm.mem_iff.mpr hx

theorem allUnits_length : ∀ u ∈ allUnits, u.length = 9 := by decide

theorem unitCells_length (cells : List Cell) {u : List Nat} (hu : u ∈ allUnits) :
    (unitCells cells u).length = 9 := by
  simp [unitCells, allUnits_length u hu]

theorem nonzeroValues_length_le (cs : List Cell) : (nonzeroValues cs).length ≤ cs.length := by
  calc (nonzeroValues cs).length ≤ (cs.map Cell.value).length := List.length_filter_le _ _
  _ = cs.length := List.length_map _ _

theorem is_solved_iff_allUnits (cells : List Cell) :
    is_solved cells = true ↔ ∀ u ∈ allUnits, is_satisfied (unitCells cells u) = true := by
  unfold is_solved
  simp only [Bool.and_eq_true, List.all_eq_true, List.mem_range]
  constructor
  · rintro ⟨⟨hbox, hrow⟩, hcol⟩ u hu
    simp only [allUnits, List.mem_append, List.mem_map, List.mem_range] at hu
    rcases hu with (⟨r, hr, rfl⟩ | ⟨c, hc, rfl⟩) | ⟨b, hb2, rfl⟩
    · exact hrow r hr
    · exact hcol c hc
    · exact hbox b hb2
  · intro h
    refine ⟨⟨?_, ?_⟩, ?_⟩
    · intro b hb2
      exact h (boxIdx b) (by
        simp only [allUnits, List.mem_append, List.mem_map, List.mem_range]
        exact Or.inr ⟨b, hb2, rfl⟩)
    · intro r hr
      exact h (rowIdx r) (by
        simp only [allUnits, List.mem_append, List.mem_map, List.mem_range]
        exact Or.inl (Or.inl ⟨r, hr, rfl⟩))
    · intro c hc
      exact h (colIdx c) (by
        simp only [allUnits, List.mem_append, List.mem_map, List.mem_range]
        exact Or.inl (Or.inr ⟨c, hc, rfl⟩))

/-! ### Constructed-puzzle facts -/

theorem mkCells_length (grid : List (List Nat)) : (mkCells grid).length = 81 := by
  unfold mkCells
  simp only [List.length_flatMap]
  rw [List.map_congr_left (g := fun _ => 9) (fun r _ => by simp [Function.comp])]
  decide

theorem mkCells_noZero (grid : List (List Nat)) : noZeroPV (mkCells grid) := by
  rw [noZeroPV_iff]
  intro c hc
  simp only [mkCells, List.mem_flatMap, List.mem_map, List.mem_range] at hc
  obtain ⟨r, _, c2, _, rfl⟩ := hc
  unfold cellNew
  dsimp only
  split
  · decide
  · rename_i hv
    intro hmem
    rw [List.mem_singleton] at hmem
    exact hv hmem.symm

theorem mkCells_eCount_le (grid : List (List Nat)) : eCount (mkCells grid) ≤ 81 := by
  calc eCount (mkCells grid) ≤ (valuesOf (mkCells grid)).length := List.length_filter_le _ _
  _ = 81 := by rw [valuesOf_length, mkCells_length]

/-! ### Random-loop extras -/

theorem randLoop_invW (oracle : Nat → Nat) :
    ∀ (fuel : Nat) (s : SolverSt) (a t : Nat),
      invW s.cells → invW (randLoop oracle fuel s a t).1.cells := by
  intro fuel
  induction fuel with
  | zero => intro s a t h; exact h
  | succ fuel ih =>
    intro s a t h
    simp only [randLoop]
    split
    · exact h
    · split
      · exact h
      · split
        · exact h
        · apply ih
          dsimp only
          intro j x hx hv
          rw [cellsGet_set] at hx hv ⊢
          by_cases hcase : (emptiesOf s.cells).getD (oracle t % (emptiesOf s.cells).length) 0 = j ∧
              (emptiesOf s.cells).getD (oracle t % (emptiesOf s.cells).length) 0 < s.cells.length
          · rw [if_pos hcase] at hx hv ⊢
            simpa using hx
          · rw [if_neg hcase] at hx hv ⊢
            exact h j x hx hv

theorem randLoop_deadend (oracle : Nat → Nat) (fuel : Nat) (s : SolverSt) (a t : Nat)
    (hs : s.solved = false) (hu : s.unsolvable = false)
    (hemp : (emptiesOf s.cells).length ≠ 0)
    (hdead : (validValuesForIdx s.cells
      ((emptiesOf s.cells).getD (oracle t % (emptiesOf s.cells).length) 0)).length = 0) :
    randLoop oracle (fuel + 1) s a t =
      ({ s with solver_iterations := s.solver_iterations + 1, unsolvable := true }, a + 1) := by
  simp only [randLoop]
  rw [if_neg (by simp [hs, hu]), if_neg hemp, if_pos hdead]


theorem nodupPV_of_forall_mem {cells : List Cell}
    (h : ∀ c ∈ cells, c.possible_values.Nodup) : nodupPV cells := by
  intro j
  rcases Nat.lt_or_ge j cells.length with hj | hj
  · rw [cellsGet_lt hj]
    exact h _ (by simp)
  · rw [cellsGet_ge hj, default_pv]
    exact List.nodup_nil

theorem invWB_iff (cells : List Cell) : invWB cells = true ↔ invW cells := by
  rw [invW_iff, invWB, List.all_eq_true]
  apply forall_congr'
  intro c
  apply imp_congr_right
  intro _
  constructor
  · intro hb x hx hv
    rcases Bool.or_eq_true_iff.mp hb with h0 | hall
    · exact absurd (by simpa using h0) hv
    · have hx2 := List.all_eq_true.mp hall x hx
      simpa using hx2
  · intro hp
    by_cases hv : c.value = 0
    · exact Bool.or_eq_true_iff.mpr (Or.inl (by simpa using hv))
    · refine Bool.or_eq_true_iff.mpr (Or.inr ?_)
      rw [List.all_eq_true]
      intro x hx
      simpa using hp x hx hv

theorem mkCells_invStrict (grid : List (List Nat)) : invStrictB (mkCells grid) = true := by
  rw [invStrictB, List.all_eq_true]
  intro c hc
  simp only [mkCells, List.mem_flatMap, List.mem_map, List.mem_range] at hc
  obtain ⟨r, _, c2, _, rfl⟩ := hc
  unfold cellNew
  dsimp only
  split
  · rename_i hv
    apply Bool.or_eq_true_iff.mpr
    exact Or.inl (by simpa using hv)
  · apply Bool.or_eq_true_iff.mpr
    exact Or.inr (by simp)

theorem solveRandom_not_both (oracle : Nat → Nat) (s : SolverSt)
    (hs : ¬(s.solved = true ∧ s.unsolvable = true)) (hlen : s.cells.length ≤ 81) :
    ¬((solveRandom oracle s).1.solved = true ∧ (solveRandom oracle s).1.unsolvable = true) := by
  unfold solveRandom
  dsimp only
  have hb := randLoop_attempt_bound oracle 10000 s 0 0
  have he : eCount s.cells ≤ s.cells.length := by
    calc eCount s.cells ≤ (valuesOf s.cells).length := List.length_filter_le _ _
    _ = s.cells.length := valuesOf_length _
  rw [if_neg (by omega)]
  exact randLoop_not_both oracle 10000 s 0 0 hs

theorem solveRandom_invW (oracle : Nat → Nat) (s : SolverSt) (h : invW s.cells) :
    invW (solveRandom oracle s).1.cells := by
  unfold solveRandom
  dsimp only
  split
  · exact randLoop_invW oracle 10000 s 0 0 h
  · exact randLoop_invW oracle 10000 s 0 0 h




/-! ### Claim theorems -/

/-- C1 (amended): Puzzle construction establishes the exact invariant
`candidates = {value}` for every filled cell of the input grid, and the
invariant that every technique operation (basic elimination, pair/triple
exclusion via `subsetTechnique`, random fill) actually preserves is the
weakened form `value ≠ 0 → candidates ⊆ {value}` (`invW`): after a technique
runs, the candidate set of a filled cell may be empty rather than the value singleton. -/
theorem claim_C1_invariant :
    (∀ grid : List (List Nat), invStrictB (mkCells grid) = true)
    ∧ (∀ cells : List Cell, invW cells → invW (basicElim cells).cells)
    ∧ (∀ (k : Nat) (cells : List Cell), invW cells → invW (subsetTechnique k cells).cells)
    ∧ (∀ (oracle : Nat → Nat) (s : SolverSt), invW s.cells → invW (solveRandom oracle s).1.cells) := by
  refine ⟨mkCells_invStrict, ?_, ?_, solveRandom_invW⟩
  · intro cells h
    exact (basicElim_evo cells).2.2.2.2 h
  · intro k cells h
    exact (subsetTechnique_evo k cells).2.2.2.2 h

/-- C1 counterexample: on the board with a single 5 at (0, 0), one basic
elimination pass leaves the filled cell with value 5 but an empty candidate
set, so the claimed exact invariant `candidates = {value}` does not survive
the technique operations. -/
theorem claim_C1_counterexample :
    (cellsGet (basicElim (mkCells grid0)).cells 0).value = 5
    ∧ (cellsGet (basicElim (mkCells grid0)).cells 0).possible_values = []
    ∧ invStrictB (basicElim (mkCells grid0)).cells = false := by
  decide

/-- C1 witness: the preservation conjunct applied to the concrete
single-given board. -/
theorem claim_C1_witness : invW (basicElim (mkCells grid0)).cells :=
  claim_C1_invariant.2.1 (mkCells grid0) ((invWB_iff (mkCells grid0)).mp (by decide))

/-- C2 (amended): during a basic-elimination sweep the value of every filled cell
is removed from the candidate sets of every cell sharing its row, column or
box — including the filled cell itself, whose own candidate set is *not*
left unchanged; one logical step is counted per filled cell examined; and
the elimination-operation counter grows by exactly the total number of
candidates removed from the board (removals of an already-absent candidate
count nothing). -/
theorem claim_C2_sweep (cells : List Cell) (h81 : cells.length = 81)
    (hpos : posOK cells) (hnd : nodupPV cells) :
    (∀ i, i < 81 → (cellsGet cells i).value ≠ 0 →
      ∀ j, j < 81 → sameUnit i j →
        (cellsGet cells i).value ∉ (cellsGet (elimSweep cells).cells j).possible_values)
    ∧ (elimSweep cells).lsteps =
        ((List.range 81).filter (fun i => (cellsGet cells i).value != 0)).length
    ∧ (elimSweep cells).ops + totalPV (elimSweep cells).cells = totalPV cells := by
  refine ⟨?_, ?_, ?_⟩
  · intro i hi hv j hj hsame
    obtain ⟨hx, hy⟩ := hpos i (by omega)
    have hmem : j ∈ rowIdx (cellsGet cells i).x_pos_abs ∨
        j ∈ colIdx (cellsGet cells i).y_pos_abs ∨
        j ∈ boxIdx (boxIdxOf (cellsGet cells i).x_pos_abs (cellsGet cells i).y_pos_abs) := by
      rw [hx, hy]
      rcases hsame with h | h | h
      · exact Or.inl (mem_rowIdx_of hj h)
      · exact Or.inr (Or.inl (mem_colIdx_of hj h))
      · exact Or.inr (Or.inr (mem_boxIdx_of hj h))
    exact sweep_fold_removes (List.range 81)
      { cells := cells, fills := 0, ops := 0, lsteps := 0 }
      i (by simpa using hi) hv j hmem
  · have h := sweep_fold_lsteps (List.range 81)
      { cells := cells, fills := 0, ops := 0, lsteps := 0 }
    unfold elimSweep
    rw [h, List.countP_eq_length_filter]
    dsimp only
    omega
  · have h := sweep_fold_ops (List.range 81)
      { cells := cells, fills := 0, ops := 0, lsteps := 0 } hnd
    unfold elimSweep
    dsimp only at h
    omega

/-- C2 counterexample: the filled cell at flat index 0 starts with candidate
set `{5}` and ends the sweep with an empty candidate set, so the claim that
that the own candidate set of the filled cell is left unchanged is false. -/
theorem claim_C2_counterexample :
    (cellsGet (mkCells grid0) 0).value = 5
    ∧ (cellsGet (mkCells grid0) 0).possible_values = [5]
    ∧ (cellsGet (elimSweep (mkCells grid0)).cells 0).possible_values = [] := by
  decide

/-- C2 witness: the amended sweep description applied to the concrete
single-given board, evaluated at the filled cell 0 and its row peer 1. -/
theorem claim_C2_witness :
    (5 : Nat) ∉ (cellsGet (elimSweep (mkCells grid0)).cells 1).possible_values
    ∧ (elimSweep (mkCells grid0)).lsteps =
        ((List.range 81).filter (fun i => (cellsGet (mkCells grid0) i).value != 0)).length
    ∧ (elimSweep (mkCells grid0)).ops + totalPV (elimSweep (mkCells grid0)).cells =
        totalPV (mkCells grid0) := by
  have h := claim_C2_sweep (mkCells grid0) (by decide)
    (by unfold posOK; decide) (nodupPV_of_forall_mem (by decide))
  refine ⟨?_, h.2.1, h.2.2⟩
  have h2 := h.1 0 (by decide) (by decide) 1 (by decide) (by unfold sameUnit; decide)
  simpa using h2

/-- C3: basic elimination is two-phase: the sweep changes no cell values
(no fill happens mid-sweep), and afterwards the fill pass replaces exactly
the unfilled cells whose candidate set is a singleton by that sole candidate
(via `fillCell`, whose new value is the popped candidate), counting exactly
one fill per such cell. -/
theorem claim_C3_two_phase (cells : List Cell) :
    (basicElim cells).cells = (fillSingles (elimSweep cells).cells).1
    ∧ (basicElim cells).fills = (fillSingles (elimSweep cells).cells).2
    ∧ valuesOf (elimSweep cells).cells = valuesOf cells
    ∧ (∀ c : Cell, (fillCell c).value = c.possible_values.headD 0)
    ∧ (∀ cs : List Cell,
        (fillSingles cs).2 = cs.countP (fun c => c.value == 0 && c.possible_values.length == 1)
        ∧ ∀ i, i < cs.length →
            cellsGet (fillSingles cs).1 i =
              (if (cellsGet cs i).value = 0 ∧ (cellsGet cs i).possible_values.length = 1
               then fillCell (cellsGet cs i) else cellsGet cs i)) := by
  refine ⟨?_, ?_, (elimSweep_shrink cells).1.valuesOf_eq, fun c => rfl,
    fun cs => ⟨fillSingles_count cs, fillSingles_getD cs⟩⟩
  · unfold basicElim
    dsimp only
  · unfold basicElim
    dsimp only

/-- C3 witness: the two-phase description applied to the concrete
single-given board (after the sweep, cell 0 keeps its value and no cell was
filled mid-sweep; the fill characterization instantiated at cell 1). -/
theorem claim_C3_witness :
    valuesOf (elimSweep (mkCells grid0)).cells = valuesOf (mkCells grid0)
    ∧ cellsGet (fillSingles (mkCells grid0)).1 1 =
        (if (cellsGet (mkCells grid0) 1).value = 0 ∧
            (cellsGet (mkCells grid0) 1).possible_values.length = 1
         then fillCell (cellsGet (mkCells grid0) 1) else cellsGet (mkCells grid0) 1) :=
  ⟨(claim_C3_two_phase (mkCells grid0)).2.2.1,
   ((claim_C3_two_phase (mkCells grid0)).2.2.2.2 (mkCells grid0)).2 1 (by decide)⟩

/-- C4: the `is_satisfied` of a unit (a set comparison in the source) holds iff
the multiset of its non-zero cell values is exactly {1,…,9} (which for nine
cells forces all cells filled with no repeats), and `is_solved` holds iff
all 27 units satisfy that property. -/
theorem claim_C4_satisfaction (cells : List Cell) :
    (∀ u ∈ allUnits,
      (is_satisfied (unitCells cells u) = true ↔
        ((nonzeroValues (unitCells cells u) : Multiset Nat) = (digits : Multiset Nat))))
    ∧ (is_solved cells = true ↔
        ∀ u ∈ allUnits,
          ((nonzeroValues (unitCells cells u) : Multiset Nat) = (digits : Multiset Nat))) := by
  have hunit : ∀ u ∈ allUnits,
      (is_satisfied (unitCells cells u) = true ↔
        ((nonzeroValues (unitCells cells u) : Multiset Nat) = (digits : Multiset Nat))) := by
    intro u hu
    rw [is_satisfied_eq]
    apply setEq_digits_iff
    calc (nonzeroValues (unitCells cells u)).length ≤ (unitCells cells u).length :=
      nonzeroValues_length_le _
    _ = 9 := unitCells_length cells hu
  refine ⟨hunit, ?_⟩
  rw [is_solved_iff_allUnits]
  constructor
  · intro h u hu
    exact (hunit u hu).mp (h u hu)
  · intro h u hu
    exact (hunit u hu).mpr (h u hu)

/-- C4 witness: the equivalence applied to the completed valid board and its
first row. -/
theorem claim_C4_witness :
    is_solved (mkCells gridFull) = true
    ∧ ((nonzeroValues (unitCells (mkCells gridFull) (rowIdx 0)) : Multiset Nat) =
        (digits : Multiset Nat)) := by
  have h := claim_C4_satisfaction (mkCells gridFull)
  have hsolved : is_solved (mkCells gridFull) = true := by decide
  refine ⟨hsolved, ?_⟩
  exact (h.2.mp hsolved) (rowIdx 0) (by decide)


/-- C5: in the elimination-family loop, a zero-fill iteration increments
`iterations_without_progress`, a filling iteration resets it, and the loop
stops with `unsolvable = true` exactly when the counter reaches 5: from a
state just after a progress iteration (counter 0, solver_iterations = N),
five consecutive zero-fill iterations end the loop at iteration N + 5 with
`iterations_without_progress = 5` and `solved` still false. -/
theorem claim_C5_stagnation (cfg : Cfg) (s : SolverSt) (N fuel : Nat)
    (h1 : s.solved = false) (h2 : s.unsolvable = false)
    (h3 : s.iterations_without_progress = 0) (h4 : s.solver_iterations = N)
    (h5 : is_solved s.cells = false)
    (h6 : ∀ k, k < 5 → (pipeOnce cfg ((pIter cfg)^[k] s.cells)).fills = 0)
    (hf : 5 ≤ fuel) :
    (elimLoop cfg fuel s).unsolvable = true ∧ (elimLoop cfg fuel s).solved = false
    ∧ (elimLoop cfg fuel s).solver_iterations = N + 5
    ∧ (elimLoop cfg fuel s).iterations_without_progress = 5 := by
  have h := elimLoop_stall_run cfg 5 s fuel (by omega) h1 h2 (by omega) h5 h6 (by omega)
  exact ⟨h.1, h.2.1, by rw [h.2.2.1, h4], h.2.2.2⟩

/-- C5 witness: the all-empty board makes no progress from the start, so
pure elimination stops at iteration 5 with the counter at 5. -/
theorem claim_C5_witness :
    (elimLoop ⟨false, false⟩ 5 (mkSolver (mkCells gridEmpty))).unsolvable = true
    ∧ (elimLoop ⟨false, false⟩ 5 (mkSolver (mkCells gridEmpty))).solved = false
    ∧ (elimLoop ⟨false, false⟩ 5 (mkSolver (mkCells gridEmpty))).solver_iterations = 0 + 5
    ∧ (elimLoop ⟨false, false⟩ 5 (mkSolver (mkCells gridEmpty))).iterations_without_progress = 5 :=
  claim_C5_stagnation ⟨false, false⟩ (mkSolver (mkCells gridEmpty)) 0 5
    rfl rfl rfl rfl (by decide) (by decide) (by omega)

/-- C6 (amended): `get_cell` is plain Python list indexing on the flat index
`row * 9 + col`: for coordinates in [0, 8] it returns the cell at that
position, and in general it returns a cell exactly when the flat index lies
in [-81, 81), negative flat indices wrapping from the end; no bounds check
is applied to the coordinates themselves. -/
theorem claim_C6_get_cell (cells : List Cell) (h81 : cells.length = 81) (x y : Int) :
    (0 ≤ x → x ≤ 8 → 0 ≤ y → y ≤ 8 →
      get_cell cells x y = Except.ok (cellsGet cells (x * 9 + y).toNat))
    ∧ (returnsCell (get_cell cells x y) = true ↔ -81 ≤ x * 9 + y ∧ x * 9 + y < 81) := by
  unfold get_cell pyListGet
  constructor
  · intro hx0 hx8 hy0 hy8
    rw [if_pos ⟨by omega, by omega⟩]
  · by_cases hc1 : 0 ≤ x * 9 + y ∧ x * 9 + y < (cells.length : Int)
    · rw [if_pos hc1]
      simp only [returnsCell]
      constructor
      · intro _
        omega
      · intro _
        trivial
    · rw [if_neg hc1]
      by_cases hc2 : -(cells.length : Int) ≤ x * 9 + y ∧ x * 9 + y < 0
      · rw [if_pos hc2]
        simp only [returnsCell]
        constructor
        · intro _
          omega
        · intro _
          trivial
      · rw [if_neg hc2]
        simp only [returnsCell]
        constructor
        · intro h
          exact absurd h Bool.false_ne_true
        · intro h
          omega

/-- C6 counterexample: `(0, 9)` has a column outside [0, 8], yet `get_cell`
returns a cell (the one at flat index 9, i.e. position (1, 0)) instead of
failing. -/
theorem claim_C6_counterexample :
    ¬((9 : Int) ≤ 8)
    ∧ get_cell (mkCells grid0) 0 9 = Except.ok (cellsGet (mkCells grid0) 9)
    ∧ (cellsGet (mkCells grid0) 9).x_pos_abs = 1
    ∧ (cellsGet (mkCells grid0) 9).y_pos_abs = 0 := by
  refine ⟨by omega, ?_, by decide, by decide⟩
  rfl

/-- C6 witness: the amended description applied to the in-range pair (2, 3)
and to the out-of-range pair (0, 9). -/
theorem claim_C6_witness :
    get_cell (mkCells grid0) 2 3 = Except.ok (cellsGet (mkCells grid0) ((2 * 9 + 3 : Int)).toNat)
    ∧ (returnsCell (get_cell (mkCells grid0) 0 9) = true ↔
        -81 ≤ (0 : Int) * 9 + 9 ∧ (0 : Int) * 9 + 9 < 81) :=
  ⟨(claim_C6_get_cell (mkCells grid0) (by decide) 2 3).1 (by omega) (by omega) (by omega)
      (by omega),
   (claim_C6_get_cell (mkCells grid0) (by decide) 0 9).2⟩

/-- C7 (amended): the statistics dict has exactly the keys `cells_filled`,
`elimination_operations`, `solver_iterations`, `logical_steps`,
`total_reasoning_operations`, `efficiency_ratio`, `eliminations_per_cell`,
`unsolvable` and `iterations_without_progress` — there is no `solved`
entry — and the derived entries satisfy the three stated equations. -/
theorem claim_C7_stats (s : SolverSt) :
    (get_detailed_stats s).map Prod.fst =
      [keyCellsFilled, keyElimOps, keySolverIters, keyLogicalSteps, keyTotalReasoning,
       keyEffRatio, keyElimsPerCell, keyUnsolvable, keyIterNoProgress]
    ∧ List.lookup keyTotalReasoning (get_detailed_stats s) =
        some (StatVal.n (s.logical_steps + s.elimination_operations))
    ∧ List.lookup keyEffRatio (get_detailed_stats s) =
        some (StatVal.q ((s.cells_filled : ℚ) / ((max 1 s.solver_iterations : Nat) : ℚ)))
    ∧ List.lookup keyElimsPerCell (get_detailed_stats s) =
        some (StatVal.q ((s.elimination_operations : ℚ) / ((max 1 s.cells_filled : Nat) : ℚ)))
    ∧ List.lookup keySolved (get_detailed_stats s) = none := by
  refine ⟨rfl, ?_, ?_, ?_, ?_⟩ <;> rfl

/-- C7 counterexample: for a freshly constructed solver the returned dict has
no `solved` key, contradicting the claimed field list. -/
theorem claim_C7_counterexample :
    List.lookup keySolved (get_detailed_stats (mkSolver (mkCells grid0))) = none
    ∧ ((get_detailed_stats (mkSolver (mkCells grid0))).map Prod.fst).contains keySolved = false := by
  exact ⟨rfl, rfl⟩

/-- C8: the random strategy is capped at 10000 attempts; exhausting the cap
reports `unsolvable = true`; and an iteration whose chosen empty cell has no
valid digit sets `unsolvable = true` and stops the loop at once. -/
theorem claim_C8_random_bounds :
    (∀ (oracle : Nat → Nat) (s : SolverSt), (solveRandom oracle s).2 ≤ 10000)
    ∧ (∀ (oracle : Nat → Nat) (s : SolverSt),
        10000 ≤ (solveRandom oracle s).2 → (solveRandom oracle s).1.unsolvable = true)
    ∧ (∀ (oracle : Nat → Nat) (fuel : Nat) (s : SolverSt) (a t : Nat),
        s.solved = false → s.unsolvable = false →
        (emptiesOf s.cells).length ≠ 0 →
        (validValuesForIdx s.cells
          ((emptiesOf s.cells).getD (oracle t % (emptiesOf s.cells).length) 0)).length = 0 →
        randLoop oracle (fuel + 1) s a t =
          ({ s with solver_iterations := s.solver_iterations + 1, unsolvable := true }, a + 1)) := by
  refine ⟨?_, ?_, randLoop_deadend⟩
  · intro oracle s
    have h := randLoop_attempt_le oracle 10000 s 0 0
    unfold solveRandom
    dsimp only
    omega
  · intro oracle s h
    unfold solveRandom at h ⊢
    dsimp only at h ⊢
    rw [if_pos h]

/-- C8 witness: on the dead-end board the first iteration selects cell
(0, 0), finds no valid digit, and the loop stops immediately with
`unsolvable = true` after a single attempt. -/
theorem claim_C8_witness :
    randLoop (fun _ => 0) 1 (mkSolver (mkCells gridDead)) 0 0 =
      ({ mkSolver (mkCells gridDead) with
          solver_iterations := (mkSolver (mkCells gridDead)).solver_iterations + 1
          unsolvable := true }, 0 + 1) :=
  claim_C8_random_bounds.2.2 (fun _ => 0) 0 (mkSolver (mkCells gridDead)) 0 0
    rfl rfl (by decide) (by decide)

/-- C9: whatever the strategy string and the pseudo-random choices, a solver
built on a constructed puzzle never ends `solve` with both `solved` and
`unsolvable` true. -/
theorem claim_C9_exclusive (grid : List (List Nat)) (method : String) (oracle : Nat → Nat)
    (st : SolverSt) (h : solve method oracle (mkSolver (mkCells grid)) = Except.ok st) :
    ¬(st.solved = true ∧ st.unsolvable = true) := by
  have hinit : ¬((mkSolver (mkCells grid)).solved = true ∧
      (mkSolver (mkCells grid)).unsolvable = true) := by
    intro hb
    exact Bool.false_ne_true hb.1
  unfold solve at h
  by_cases h1 : method = strElimination
  · rw [if_pos h1] at h
    obtain rfl : elimLoop ⟨false, false⟩ 492 (mkSolver (mkCells grid)) = st := by
      injection h
    exact elimLoop_not_both ⟨false, false⟩ 492 _ hinit
  · rw [if_neg h1] at h
    by_cases h2 : method = strEliminationPlus
    · rw [if_pos h2] at h
      obtain rfl : elimLoop ⟨true, false⟩ 492 (mkSolver (mkCells grid)) = st := by
        injection h
      exact elimLoop_not_both ⟨true, false⟩ 492 _ hinit
    · rw [if_neg h2] at h
      by_cases h3 : method = strEliminationPro
      · rw [if_pos h3] at h
        obtain rfl : elimLoop ⟨true, true⟩ 492 (mkSolver (mkCells grid)) = st := by
          injection h
        exact elimLoop_not_both ⟨true, true⟩ 492 _ hinit
      · rw [if_neg h3] at h
        by_cases h4 : method = strRandom
        · rw [if_pos h4] at h
          obtain rfl : (solveRandom oracle (mkSolver (mkCells grid))).1 = st := by
            injection h
          exact solveRandom_not_both oracle _ hinit
            (by dsimp only [mkSolver]; simp [mkCells_length])
        · rw [if_neg h4] at h
          exact absurd h (by simp)



/-- C9 witness: the exclusivity applied to the completed board under the
random strategy. -/
theorem claim_C9_witness : ¬(c9WitnessState.solved = true ∧ c9WitnessState.unsolvable = true) :=
  claim_C9_exclusive gridFull strRandom (fun _ => 0) c9WitnessState rfl

/-- C10: from any constructed puzzle the elimination-family loop reaches a
terminal state (`solved` or `unsolvable`) within 492 iterations — each
iteration either fills one of at most 81 empty cells or pushes the
stagnation counter toward 5 — and giving the loop more fuel changes
nothing. -/
theorem claim_C10_terminates (grid : List (List Nat)) (up ut : Bool) :
    ((elimLoop ⟨up, ut⟩ 492 (mkSolver (mkCells grid))).solved = true ∨
     (elimLoop ⟨up, ut⟩ 492 (mkSolver (mkCells grid))).unsolvable = true)
    ∧ ∀ fuel, 492 ≤ fuel →
        elimLoop ⟨up, ut⟩ fuel (mkSolver (mkCells grid)) =
          elimLoop ⟨up, ut⟩ 492 (mkSolver (mkCells grid)) := by
  have hterm := elimLoop_terminal ⟨up, ut⟩ 492 (mkSolver (mkCells grid))
    (mkCells_noZero grid) (by exact Nat.zero_le 5)
    (by
      have := mkCells_eCount_le grid
      dsimp only [mkSolver]
      omega)
  exact ⟨hterm, fun fuel hf => elimLoop_stable ⟨up, ut⟩ 492 fuel _ hf hterm⟩

/-- C10 witness: the bound applied to the single-given board with extra
fuel. -/
theorem claim_C10_witness :
    ((elimLoop ⟨false, false⟩ 492 (mkSolver (mkCells grid0))).solved = true ∨
     (elimLoop ⟨false, false⟩ 492 (mkSolver (mkCells grid0))).unsolvable = true)
    ∧ elimLoop ⟨false, false⟩ 493 (mkSolver (mkCells grid0)) =
        elimLoop ⟨false, false⟩ 492 (mkSolver (mkCells grid0)) :=
  ⟨(claim_C10_terminates grid0 false false).1,
   (claim_C10_terminates grid0 false false).2 493 (by omega)⟩

end Sudoku
